import Mathlib

/-!
Verification of the GF(2) homology module (`homology_mod2.py`) of HyperNetX.

The module computes simplicial homology mod 2 of the abstract simplicial
complex induced by a hypergraph's edges.  Matrices over `Z/2Z` are stored in
the source as 0/1 integer numpy arrays and combined exclusively with
`logical_xor` / `logical_and`, i.e. exactly the field operations of `ZMod 2`;
we therefore embed matrix entries as `ZMod 2` (a matrix of shape m times n is
`Matrix (Fin m) (Fin n) (ZMod 2)`).  Python edges expose a set `e.uidset` of
sortable uids; we embed an edge as the `List ℕ` of its member uids (set
semantics are recovered with `List.dedup`, and `sorted` is `insertionSort`).
-/

namespace HNX

abbrev F2 := ZMod 2

abbrev Mat (m n : ℕ) := Matrix (Fin m) (Fin n) F2

/-! ## Elementary matrix operations (source lines 133-256)

`_rswap(i, j, S)` returns a copy of `S` whose rows `i` and `j` are exchanged;
`_cswap` does the same on columns via transposition.  `add_to_row(M, i, j)`
replaces row `i` by the xor of rows `i` and `j` of a copy; `add_to_column`
again goes through the transpose. -/

def rswap (i j : Fin m) (S : Mat m n) : Mat m n :=
  fun r c => if r = i then S j c else if r = j then S i c else S r c

def cswap (i j : Fin n) (S : Mat m n) : Mat m n :=
  (rswap i j S.transpose).transpose

def add_to_row (M : Mat m n) (i j : Fin m) : Mat m n :=
  fun r c => if r = i then M i c + M j c else M r c

def add_to_column (M : Mat m n) (i j : Fin n) : Mat m n :=
  (add_to_row M.transpose i j).transpose

/-! ## Mod 2 products (source lines 259-353) -/

/-- Dot product mod 2 of two length-`b` vectors: xor-reduction of the
pairwise and (source `logical_dot`); over `ZMod 2` this is the sum of the
pairwise products. -/
def logical_dot (ar1 ar2 : Fin b → F2) : F2 :=
  ∑ k, ar1 k * ar2 k

/-- Matrix multiplication mod 2 (source `logical_matmul`).  The source skips
the dot products for an all-zero row of `mat1` and writes a zero row instead;
the skip is reproduced here (it is semantically the identity). -/
def logical_matmul (mat1 : Mat a b) (mat2 : Mat b c) : Mat a c :=
  fun i j => if ∀ k, mat1 i k = 0 then 0 else logical_dot (mat1 i) (fun k => mat2 k j)

/-- Iterated `logical_matmul` (source `matmulreduce`, `reverse=False`),
specialised to the three-element list it is applied to in `homology_basis`
(the generic Python fold over a list of heterogeneously-shaped arrays
unfolds to exactly this at that call site). -/
def matmulreduce3 (A : Mat a b) (B : Mat b c) (C : Mat c d) : Mat a d :=
  logical_matmul (logical_matmul A B) C

/-- Total number of ones in a 0/1 matrix (numpy `np.sum` on a 0/1 integer
array).  The source uses this as the rank of a Smith normal form. -/
def matSum (M : Mat m n) : ℕ :=
  ((List.finRange m).map
    (fun i => ((List.finRange n).map (fun j => if M i j = 1 then 1 else 0)).sum)).sum

/-! ## Pivot search (source `_get_next_pivot`, lines 414-446)

The source scans columns from `s2` upward and, inside a column, rows from
`s1` upward, returning the first position holding a one.  The parameter `s2`
defaults to `None` and is replaced by `s1` via the truthiness test
`if not s2:` — which also replaces an explicitly passed `s2 = 0` by `s1`.
Both behaviours are reproduced: `s2` is an `Option ℕ`, and the value
`some 0` is mapped to `s1` exactly as the source does. -/

def pivotInCol (M : Mat m n) (c : Fin n) : ℕ → ℕ → Option (Fin m)
  | 0, _ => none
  | fuel + 1, r =>
    if h : r < m then
      if M ⟨r, h⟩ c = 1 then some ⟨r, h⟩ else pivotInCol M c fuel (r + 1)
    else none

def pivotScan (M : Mat m n) (s1 : ℕ) : ℕ → ℕ → Option (Fin m × Fin n)
  | 0, _ => none
  | fuel + 1, c =>
    if h : c < n then
      match pivotInCol M ⟨c, h⟩ m s1 with
      | some r => some (r, ⟨c, h⟩)
      | none => pivotScan M s1 fuel (c + 1)
    else none

def get_next_pivot (M : Mat m n) (s1 : ℕ) (s2 : Option ℕ) : Option (Fin m × Fin n) :=
  let s2v : ℕ := match s2 with | none => s1 | some v => if v = 0 then s1 else v
  pivotScan M s1 n s2v

/-! ## Smith normal form (source `smith_normal_form_mod2`, lines 449-508) -/

structure SNFState (m n : ℕ) where
  S : Mat m n
  L : Mat m m
  R : Mat n n
  Linv : Mat m m

/-- Row half of the pivot-positioning swaps (source lines 495-497; the
source swaps `Linv` columns in the order `(rdx, s)`). -/
def snfRSwapMaybe (st : SNFState m n) (sm rdx : Fin m) : SNFState m n :=
  if sm.val < rdx.val then
    { st with S := rswap sm rdx st.S, L := rswap sm rdx st.L,
              Linv := cswap rdx sm st.Linv }
  else st

/-- Column half of the pivot-positioning swaps (source lines 498-499). -/
def snfCSwapMaybe (st : SNFState m n) (sn cdx : Fin n) : SNFState m n :=
  if sn.val < cdx.val then
    { st with S := cswap sn cdx st.S, R := cswap sn cdx st.R }
  else st

/-- Swap rows and columns as needed so that the pivot value lands in the
`(s, s)` position (source lines 495-499). -/
def snfSwapPhase (st : SNFState m n) (sm : Fin m) (sn : Fin n)
    (rdx : Fin m) (cdx : Fin n) : SNFState m n :=
  snfCSwapMaybe (snfRSwapMaybe st sm rdx) sn cdx

/-- Add the `s`th row to every lower row with a 1 in the `s`th column
(source lines 501-504; the row list is computed before the additions). -/
def snfRowPhase (st : SNFState m n) (sm : Fin m) (sn : Fin n) : SNFState m n :=
  ((List.finRange m).filter
      (fun idx => decide (sm.val + 1 ≤ idx.val) && decide (st.S idx sn = 1))).foldl
    (fun acc idx =>
      { acc with S := add_to_row acc.S idx sm, L := add_to_row acc.L idx sm,
                 Linv := add_to_column acc.Linv sm idx }) st

/-- Add the `s`th column to every later column with a 1 in the `s`th row
(source lines 505-507). -/
def snfColPhase (st : SNFState m n) (sm : Fin m) (sn : Fin n) : SNFState m n :=
  ((List.finRange n).filter
      (fun jdx => decide (sn.val + 1 ≤ jdx.val) && decide (st.S sm jdx = 1))).foldl
    (fun acc jdx =>
      { acc with S := add_to_column acc.S jdx sn, R := add_to_column acc.R jdx sn }) st

/-- One pass of the source loop body for the pivot index `s`, given the pivot
position `(rdx, cdx)` found in the submatrix `S[s:, s:]`. -/
def snfStep (st : SNFState m n) (s : ℕ) (hm : s < m) (hn : s < n)
    (rdx : Fin m) (cdx : Fin n) : SNFState m n :=
  snfColPhase (snfRowPhase (snfSwapPhase st ⟨s, hm⟩ ⟨s, hn⟩ rdx cdx) ⟨s, hm⟩ ⟨s, hn⟩)
    ⟨s, hm⟩ ⟨s, hn⟩

def snfAux (m n : ℕ) : ℕ → ℕ → SNFState m n → SNFState m n
  | 0, _, st => st
  | fuel + 1, s, st =>
    match get_next_pivot st.S s none with
    | none => st
    | some (rdx, cdx) =>
      if h : s < m ∧ s < n then
        snfAux m n fuel (s + 1) (snfStep st s h.1 h.2 rdx cdx)
      else st

/-- Source `smith_normal_form_mod2`: returns `(L, R, S, Linv)` with the loop
run for `s = 0 .. min m n - 1` (breaking when no pivot remains). -/
def smith_normal_form_mod2 (M : Mat m n) : Mat m m × Mat n n × Mat m n × Mat m m :=
  let st := snfAux m n (min m n) 0 ⟨M, 1, 1, 1⟩
  (st.L, st.R, st.S, st.Linv)

/-! ## Reduced row echelon form (source lines 511-556) -/

structure RREFState (m n : ℕ) where
  S : Mat m n
  L : Mat m m
  Linv : Mat m m

/-- Swap the pivot row up to position `s1` (source lines 545-548; a single
`if`, kept separate from the elimination loop for the proofs). -/
def rrefSwapPhase (st : RREFState m n) (s1m rdx : Fin m) : RREFState m n :=
  if s1m.val < rdx.val then
    { st with S := rswap s1m rdx st.S, L := rswap s1m rdx st.L,
              Linv := cswap rdx s1m st.Linv }
  else st

/-- Add the `s1`th row to every *other* row with a 1 in the pivot column
(source lines 549-553; the row list is computed before the additions). -/
def rrefRowPhase (st : RREFState m n) (s1m : Fin m) (cdx : Fin n) : RREFState m n :=
  ((List.finRange m).filter
      (fun idx => decide (idx.val ≠ s1m.val) && decide (st.S idx cdx = 1))).foldl
    (fun acc idx =>
      { S := add_to_row acc.S idx s1m, L := add_to_row acc.L idx s1m,
        Linv := add_to_column acc.Linv s1m idx }) st

def rrefStep (st : RREFState m n) (s1 : ℕ) (hs1 : s1 < m)
    (rdx : Fin m) (cdx : Fin n) : RREFState m n :=
  rrefRowPhase (rrefSwapPhase st ⟨s1, hs1⟩ rdx) ⟨s1, hs1⟩ cdx

def rrefAux (m n : ℕ) : ℕ → ℕ → ℕ → RREFState m n → RREFState m n
  | 0, _, _, st => st
  | fuel + 1, s1, s2, st =>
    if s2 ≤ n ∧ s1 ≤ m then
      match get_next_pivot st.S s1 (some s2) with
      | none => st
      | some (rdx, cdx) =>
        if hs1 : s1 < m then
          rrefAux m n fuel (s1 + 1) (cdx.val + 1) (rrefStep st s1 hs1 rdx cdx)
        else st
    else st

/-- Source `reduced_row_echelon_form_mod2`: returns `(L, S, Linv)`. -/
def reduced_row_echelon_form_mod2 (M : Mat m n) : Mat m m × Mat m n × Mat m m :=
  let st := rrefAux m n (m + 1) 0 0 ⟨M, 1, 1⟩
  (st.L, st.S, st.Linv)

/-! ## Chain bases (source `kchainbasis`, lines 42-76)

A hypergraph is embedded as the list of its edges; an edge is the list of
its member vertex uids (the Python `e.uidset` is a set, so duplicates in the
list are immaterial: the source always goes through `sorted(e.uidset)`,
embedded as `insertionSort` of `dedup`, and `len(e)` is the number of
distinct uids).  Python sorts the resulting set of tuples lexicographically.
-/

def lexLe : List ℕ → List ℕ → Bool
  | [], _ => true
  | _ :: _, [] => false
  | x :: xs, y :: ys => if x < y then true else if y < x then false else lexLe xs ys

/-- Sorted list of the distinct vertices of an edge (Python
`sorted(e.uidset)`). -/
def edgeSortedVerts (e : List ℕ) : List ℕ :=
  e.dedup.insertionSort (· ≤ ·)

/-- All k-chains contributed by the edges, with multiplicity (before the
set-union): an edge of exactly `k+1` distinct vertices contributes itself
sorted; a larger edge contributes every `(k+1)`-combination of its sorted
vertex list (`it.combinations` emits exactly the length-`(k+1)`
subsequences). -/
def kchains (h : List (List ℕ)) (k : ℕ) : List (List ℕ) :=
  h.flatMap (fun e =>
    let sv := edgeSortedVerts e
    if sv.length = k + 1 then [sv]
    else if k + 1 < sv.length then sv.sublistsLen (k + 1)
    else [])

/-- Source `kchainbasis`: the sorted duplicate-free list of k-chains
(`sorted(list(set(...)))`). -/
def kchainbasis (h : List (List ℕ)) (k : ℕ) : List (List ℕ) :=
  (kchains h k).dedup.insertionSort (fun x y => lexLe x y)

/-! ## Boundary matrix (source `bkMatrix`, lines 105-130)

For every cell of the k-basis and every one of its faces (deletion of one
position), the source looks the face up in the (k-1)-basis with
`list.index`, which raises `ValueError` when the face is absent — embedded
as `Except.error` carrying the missing face.  Assignment `bk[row, col] = 1`
is embedded as `setOne`. -/

def setOne (M : Mat a b) (r c : ℕ) : Mat a b :=
  fun i j => if i.val = r ∧ j.val = c then 1 else M i j

/-- Iteration order of the source's nested loops: all `(cell, idx)` pairs,
cells in basis order, `idx` over the positions of each cell. -/
def bkPairs (kb : List (List ℕ)) : List (List ℕ × ℕ) :=
  kb.flatMap (fun cell => (List.range cell.length).map (fun idx => (cell, idx)))

def bkMatrix (km1basis kbasis : List (List ℕ)) :
    Except (List ℕ) (Mat km1basis.length kbasis.length) :=
  (bkPairs kbasis).foldlM
    (fun M p =>
      let face := p.1.eraseIdx p.2
      if face ∈ km1basis then
        Except.ok (setOne M (km1basis.indexOf face) (kbasis.indexOf p.1))
      else Except.error face)
    0

/-! ## Interpretation of 0/1 vectors (source `interpret`, lines 79-102) -/

def interpret (Ck : List (List ℕ)) (arr : List (List F2)) :
    Except String (List (List (List ℕ))) :=
  arr.mapM (fun vec =>
    if Ck.length ≠ vec.length then
      Except.error "elements of arr must have the same length as Ck"
    else
      Except.ok ((List.range vec.length).filterMap
        (fun idx => if vec.getD idx 0 = 1 then some (Ck.getD idx []) else none)))

/-! ## Coset enumeration (source `coset`, lines 559-599) -/

/-- Number of ones in a 0/1 vector (`np.sum` on a 0/1 array). -/
def vecWeight (v : List F2) : ℕ :=
  (v.map (fun x => if x = 1 then 1 else 0)).sum

def scaleVec (a : F2) (v : List F2) : List F2 :=
  v.map (fun x => a * x)

/-- Elementwise `np.logical_xor.reduce` over a nonempty list of equal-length
0/1 vectors. -/
def xorVecs : List (List F2) → List F2
  | [] => []
  | v :: tl => tl.foldl (fun acc w => acc.zipWith (· + ·) w) v

/-- Tuples emitted by `it.product([0, 1], repeat=dim)` in emission order
(first coordinate varies slowest). -/
def binTuples : ℕ → List (List F2)
  | 0 => [[]]
  | d + 1 => [(0 : F2), 1].flatMap (fun a => (binTuples d).map (fun t => a :: t))

/-- The shortest-filter loop of `coset`: keep candidates of weight equal to
the current best, restart the list on a strictly smaller weight
(initial best is the weight of `bs`). -/
def cosetFold (cands : List (List F2)) (start : ℕ) : List (List F2) × ℕ :=
  cands.foldl
    (fun acc temp =>
      if vecWeight temp = acc.2 then (acc.1 ++ [temp], acc.2)
      else if vecWeight temp < acc.2 then ([temp], vecWeight temp)
      else acc)
    ([], start)

/-- Source `coset`: returns `None` when `np.sum(im2) == 0`, otherwise the
list of `bs + Σ aᵢ · (row i of im2ᵀ)` over all 0/1 tuples `a` (filtered to
the minimum weight when `shortest`). -/
def coset (im2 : Mat b r) (bs : List F2) (shortest : Bool) :
    Option (List (List F2)) :=
  if matSum im2 = 0 then none
  else
    let image_basis := (List.finRange r).map
      (fun ρ => (List.finRange b).map (fun i => im2 i ρ))
    let temps := (binTuples r).map
      (fun alpha => xorVecs ((List.zipWith scaleVec alpha image_basis) ++ [bs]))
    some (if shortest then (cosetFold temps (vecWeight bs)).1 else temps)

/-! ## Homology basis extraction (source `homology_basis`, lines 602-684)

numpy slices clamp out-of-range bounds, hence the natural subtraction /
`min` in the sliced shapes.  Pickled log output is modelled as an explicit
list of write events (the basis is computed before the log block and the
block only writes, never feeds back into the returned value). -/

def sliceColsFrom (M : Mat a b) (k : ℕ) : Mat a (b - k) :=
  fun i j => if h : k + j.val < b then M i ⟨k + j.val, h⟩ else 0

def sliceColsTo (M : Mat a b) (k : ℕ) : Mat a (min k b) :=
  fun i j => M i ⟨j.val, lt_of_lt_of_le j.isLt (min_le_right k b)⟩

def sliceRowsFrom (M : Mat a b) (k : ℕ) : Mat (a - k) b :=
  fun i j => if h : k + i.val < a then M ⟨k + i.val, h⟩ j else 0

inductive HBasis where
  | vecs : List (List F2) → HBasis
  | chains : List (List (List ℕ)) → HBasis
  | shortestChains : List (List (List (List ℕ))) → HBasis
  | strResult : String → HBasis
  | err : String → HBasis
deriving DecidableEq

inductive LogEvent where
  | homology (path : String) (k : ℕ) (betti : ℤ) (basis : HBasis) : LogEvent
  | chainData (path : String) (maxdim : ℕ) : LogEvent

/-- Interpretation of a list of coset results (source line 663):
the Python comprehension iterates in order, raising `TypeError` at the first
`None` coset and propagating `interpret` errors positionally. -/
def interpretCosets (Ck : List (List ℕ)) :
    List (Option (List (List F2))) → Except String (List (List (List (List ℕ))))
  | [] => Except.ok []
  | none :: _ => Except.error "TypeError: NoneType object is not iterable"
  | some sb :: tl =>
    match interpret Ck sb with
    | Except.error e => Except.error e
    | Except.ok v => (interpretCosets Ck tl).map (fun l => v :: l)

/-- The per-generator shortest search of source lines 659-661. -/
def shortestBasisOf (im2 : Mat b r) (projRows : List (List F2)) :
    List (Option (List (List F2))) :=
  projRows.map (fun bs => coset im2 bs true)

def homology_basis (bdk : Mat a b) (bdk1 : Mat b c) (k : ℕ)
    (C : Option (List (List ℕ))) (shortest : Bool) (log : Option String) :
    HBasis × List LogEvent :=
  let out1 := smith_normal_form_mod2 bdk
  let out2 := smith_normal_form_mod2 bdk1
  let R1 := out1.2.1
  let S1 := out1.2.2.1
  let L2 := out2.1
  let S2 := out2.2.2.1
  let L2inv := out2.2.2.2
  let rank1 := matSum S1
  let rank2 := matSum S2
  let betti1 : ℤ := (b : ℤ) - rank1 - rank2
  let ker1 := sliceColsFrom R1 rank1
  let im2 := sliceColsTo L2inv rank2
  let cokernel2 := sliceColsFrom L2inv rank2
  let cokproj2 := sliceRowsFrom L2 rank2
  let proj0 := (matmulreduce3 cokernel2 cokproj2 ker1).transpose
  let proj1 := (reduced_row_echelon_form_mod2 proj0).2.1
  let projRows := ((List.finRange (b - rank1)).map
      (fun i => (List.finRange b).map (fun j => proj1 i j))).filter
      (fun row => row.any (fun x => decide (x ≠ 0)))
  let result : HBasis :=
    if shortest then
      let shortest_basis := shortestBasisOf im2 projRows
      match C with
      | some Ck =>
        match interpretCosets Ck shortest_basis with
        | Except.error e => HBasis.err e
        | Except.ok l => HBasis.shortestChains l
      | none => HBasis.vecs []  -- `basis` is left as the initial empty list
    else
      match C with
      | some Ck =>
        match interpret Ck projRows with
        | Except.error e => HBasis.err e
        | Except.ok l => HBasis.chains l
      | none => HBasis.vecs projRows
  let events : List LogEvent :=
    match log with
    | some p => [LogEvent.homology p k betti1 result]
    | none => []
  (result, events)

/-! ## Hypergraph homology (source `hypergraph_homology_basis`, lines 687-728)

On an empty hypergraph `np.max` of an empty sequence raises `ValueError`;
a dimension outside `[1, max_dim]` makes the source return the *string*
`'wrong dim'` (a normal return, not an exception), embedded as
`HBasis.strResult`. -/

def maxEdgeSize (h : List (List ℕ)) : ℕ :=
  (h.map (fun e => e.dedup.length)).foldl Nat.max 0

def hypergraph_homology_basis (h : List (List ℕ)) (k : ℤ)
    (shortest : Bool) (log : Option String) : HBasis × List LogEvent :=
  match h with
  | [] => (HBasis.err "ValueError: max of an empty sequence", [])
  | _ :: _ =>
    let maxdim : ℤ := (maxEdgeSize h : ℤ) - 1
    if k > maxdim ∨ k < 1 then (HBasis.strResult "wrong dim", [])
    else
      let kn := k.toNat
      match bkMatrix (kchainbasis h (kn - 1)) (kchainbasis h kn),
            bkMatrix (kchainbasis h kn) (kchainbasis h (kn + 1)) with
      | Except.ok b1, Except.ok b2 =>
        let ev : List LogEvent :=
          match log with
          | some p => [LogEvent.chainData p maxdim.toNat]
          | none => []
        let out := homology_basis b1 b2 kn (some (kchainbasis h kn)) shortest log
        (out.1, ev ++ out.2)
      | Except.error _, _ => (HBasis.err "ValueError: face not in list", [])
      | Except.ok _, Except.error _ => (HBasis.err "ValueError: face not in list", [])

/-! ## Heap model of the elementary operations (source lines 133-256)

The spec claims the elementary operations never mutate their input arrays
and return fresh (unaliased) arrays.  Mutation and aliasing are modelled
with an explicit heap: a Python ndarray value is a list of rows, an object
reference is an index into the heap, `copy.deepcopy` is an allocation, and
`N[i] = ...` is an in-place write to the referenced cell.  numpy's
`transpose` returns a view; since every mutation performed by this module
happens on a fresh deepcopy (made inside `_rswap` / `add_to_row` before any
write), modelling the view as a fresh value is observationally equivalent
for these operations. -/

abbrev PyMat := List (List F2)

structure Heap where
  cells : List PyMat

def Heap.read (h : Heap) (r : ℕ) : PyMat := h.cells.getD r []

def Heap.alloc (h : Heap) (v : PyMat) : Heap × ℕ := (⟨h.cells ++ [v]⟩, h.cells.length)

def Heap.write (h : Heap) (r : ℕ) (v : PyMat) : Heap := ⟨h.cells.set r v⟩

def transposeVal (mat : PyMat) : PyMat :=
  (List.range (mat.headD []).length).map (fun j => mat.map (fun row => row.getD j 0))

def xorRow (a b : List F2) : List F2 := a.zipWith (· + ·) b

/-- Source `_rswap` (lines 147-151): `N = deepcopy(S)`, save row `i`,
overwrite row `i` with row `j`, write the saved row at `j`, return `N`. -/
def rswapH (i j sRef : ℕ) (h : Heap) : Heap × ℕ :=
  let p := h.alloc (h.read sRef)
  let rowi := (p.1.read p.2).getD i []
  let h2 := p.1.write p.2 ((p.1.read p.2).set i ((p.1.read p.2).getD j []))
  let h3 := h2.write p.2 ((h2.read p.2).set j rowi)
  (h3, p.2)

/-- Source `_cswap`: transpose, `_rswap`, transpose back. -/
def cswapH (i j sRef : ℕ) (h : Heap) : Heap × ℕ :=
  let p := h.alloc (transposeVal (h.read sRef))
  let q := rswapH i j p.2 p.1
  q.1.alloc (transposeVal (q.1.read q.2))

/-- Source `add_to_row`: `N = deepcopy(M)`, overwrite row `i` with the xor
of rows `i` and `j`, return `N`. -/
def add_to_rowH (mRef i j : ℕ) (h : Heap) : Heap × ℕ :=
  let p := h.alloc (h.read mRef)
  let h2 := p.1.write p.2
    ((p.1.read p.2).set i (xorRow ((p.1.read p.2).getD i []) ((p.1.read p.2).getD j [])))
  (h2, p.2)

/-- Source `add_to_column`: transpose, `add_to_row`, transpose back. -/
def add_to_columnH (mRef i j : ℕ) (h : Heap) : Heap × ℕ :=
  let p := h.alloc (transposeVal (h.read mRef))
  let q := add_to_rowH p.2 i j p.1
  q.1.alloc (transposeVal (q.1.read q.2))

/-- Source `swap_rows` over its `*args`: one `_rswap` per argument, results
collected into a list. -/
def swap_rowsH (i j : ℕ) (args : List ℕ) (h : Heap) : Heap × List ℕ :=
  args.foldl (fun acc r => let q := rswapH i j r acc.1; (q.1, acc.2 ++ [q.2])) (h, [])

def swap_columnsH (i j : ℕ) (args : List ℕ) (h : Heap) : Heap × List ℕ :=
  args.foldl (fun acc r => let q := cswapH i j r acc.1; (q.1, acc.2 ++ [q.2])) (h, [])

/-! ## Spec-side vocabulary used only in theorem statements -/

def embedRow (m n : ℕ) (i : Fin (min m n)) : Fin m :=
  ⟨i.val, lt_of_lt_of_le i.isLt (min_le_left m n)⟩

def embedCol (m n : ℕ) (i : Fin (min m n)) : Fin n :=
  ⟨i.val, lt_of_lt_of_le i.isLt (min_le_right m n)⟩

/-- Main diagonal of a rectangular matrix. -/
def diagVec (S : Mat m n) : Fin (min m n) → F2 :=
  fun i => S (embedRow m n i) (embedCol m n i)

/-- Number of ones on the main diagonal of a rectangular matrix. -/
def diagOnes (S : Mat m n) : ℕ :=
  (Finset.univ.filter (fun i : Fin (min m n) => diagVec S i = 1)).card

/-- Rectangular identity-like matrix: one where row and column index agree
(proof tool for relating a quasi-diagonal rectangle to a square diagonal). -/
def idInj (a b : ℕ) : Matrix (Fin a) (Fin b) F2 :=
  fun i j => if i.val = j.val then 1 else 0

/-- Position `(i, j)` is a one-entry obtained from `cell` by deleting a single
vertex: the face relation underlying `bkMatrix`. -/
def isFace (σ τ : List ℕ) : Prop :=
  ∃ idx, idx < τ.length ∧ τ.eraseIdx idx = σ

instance decIsFace (σ τ : List ℕ) : Decidable (isFace σ τ) :=
  decidable_of_iff (∃ idx ∈ List.range τ.length, τ.eraseIdx idx = σ)
    (by
      constructor
      · rintro ⟨idx, hidx, he⟩
        exact ⟨idx, List.mem_range.mp hidx, he⟩
      · rintro ⟨idx, hidx, he⟩
        exact ⟨idx, List.mem_range.mpr hidx, he⟩)

/-- The bookkeeping invariant of both reductions: the accumulated left and
right transformations reproduce the working matrix from the input, the left
inverse is a genuine right inverse of `L`, and `R` stays invertible. -/
def SNFInvariant (M : Mat m n) (st : SNFState m n) : Prop :=
  st.L * M * st.R = st.S ∧ st.L * st.Linv = 1 ∧ IsUnit st.R

def RREFInvariant (M : Mat m n) (st : RREFState m n) : Prop :=
  st.L * M = st.S ∧ st.L * st.Linv = 1

/-- All off-diagonal entries in the first `s` rows or columns vanish. -/
def DiagBand (s : ℕ) (S : Mat m n) : Prop :=
  ∀ (i : Fin m) (j : Fin n), i.val ≠ j.val → (i.val < s ∨ j.val < s) → S i j = 0

/-- The matrix is diagonal (in the rectangular sense). -/
def QuasiDiag (S : Mat m n) : Prop :=
  ∀ (i : Fin m) (j : Fin n), i.val ≠ j.val → S i j = 0

/-- Loop invariant of the row-echelon reduction: after placing `s1` pivots
(the `i`-th in row `i` and column `pcol i`), the pivot columns are strictly
increasing and entirely cleaned, every non-pivot column left of the column
pointer `s2` is zero on the rows not yet fixed, and the bookkeeping
equations hold. -/
structure RREFLoopInv (M : Mat m n) (st : RREFState m n) (s1 s2 : ℕ)
    (pcol : ℕ → Fin n) : Prop where
  inv : RREFInvariant M st
  hs1m : s1 ≤ m
  hs20 : s2 = 0 → s1 = 0
  mono : ∀ i j, i < j → j < s1 → (pcol i).val < (pcol j).val
  bound : ∀ i, i < s1 → (pcol i).val < s2
  clean1 : ∀ r : Fin m, r.val < s1 → st.S r (pcol r.val) = 1
  clean0 : ∀ i, i < s1 → ∀ r : Fin m, r.val ≠ i → st.S r (pcol i) = 0
  skipped : ∀ c : Fin n, c.val < s2 → (∀ i, i < s1 → pcol i ≠ c) →
    ∀ r : Fin m, s1 ≤ r.val → st.S r c = 0

/-! # Theorems -/

theorem F2_add_self : ∀ x : F2, x + x = 0 := by decide

theorem F2_eq_zero_of_ne_one : ∀ x : F2, x ≠ 1 → x = 0 := by decide

theorem F2_ne_zero_iff : ∀ x : F2, x ≠ 0 ↔ x = 1 := by decide

theorem one_row_dot (x : Fin m) (A : Mat m n) (c : Fin n) :
    (∑ k, (1 : Mat m m) x k * A k c) = A x c := by
  rw [← Matrix.mul_apply, Matrix.one_mul]

theorem one_col_dot (A : Mat m n) (r : Fin m) (x : Fin n) :
    (∑ k, A r k * (1 : Mat n n) k x) = A r x := by
  rw [← Matrix.mul_apply, Matrix.mul_one]

theorem rswap_apply (i j : Fin m) (S : Mat m n) (r : Fin m) (c : Fin n) :
    rswap i j S r c = if r = i then S j c else if r = j then S i c else S r c := rfl

theorem cswap_apply (i j : Fin n) (S : Mat m n) (r : Fin m) (c : Fin n) :
    cswap i j S r c = if c = i then S r j else if c = j then S r i else S r c := rfl

theorem add_to_row_apply (M : Mat m n) (i j : Fin m) (r : Fin m) (c : Fin n) :
    add_to_row M i j r c = if r = i then M i c + M j c else M r c := rfl

theorem add_to_column_apply (M : Mat m n) (i j : Fin n) (r : Fin m) (c : Fin n) :
    add_to_column M i j r c = if c = i then M r i + M r j else M r c := rfl

theorem rswap_eq_mul (i j : Fin m) (A : Mat m n) :
    rswap i j A = rswap i j (1 : Mat m m) * A := by
  funext r c
  rw [Matrix.mul_apply]
  by_cases hri : r = i
  · simp only [rswap_apply, if_pos hri]
    exact (one_row_dot j A c).symm
  · by_cases hrj : r = j
    · simp only [rswap_apply, if_neg hri, if_pos hrj]
      exact (one_row_dot i A c).symm
    · simp only [rswap_apply, if_neg hri, if_neg hrj]
      exact (one_row_dot r A c).symm

theorem cswap_eq_mul (i j : Fin n) (A : Mat m n) :
    cswap i j A = A * cswap i j (1 : Mat n n) := by
  funext r c
  rw [Matrix.mul_apply]
  by_cases hci : c = i
  · simp only [cswap_apply, if_pos hci]
    exact (one_col_dot A r j).symm
  · by_cases hcj : c = j
    · simp only [cswap_apply, if_neg hci, if_pos hcj]
      exact (one_col_dot A r i).symm
    · simp only [cswap_apply, if_neg hci, if_neg hcj]
      exact (one_col_dot A r c).symm

theorem add_to_row_eq_mul (i j : Fin m) (A : Mat m n) :
    add_to_row A i j = add_to_row (1 : Mat m m) i j * A := by
  funext r c
  rw [Matrix.mul_apply]
  by_cases hri : r = i
  · simp only [add_to_row_apply, if_pos hri, add_mul]
    rw [Finset.sum_add_distrib, one_row_dot i A c, one_row_dot j A c]
  · simp only [add_to_row_apply, if_neg hri]
    exact (one_row_dot r A c).symm

theorem add_to_column_eq_mul (i j : Fin n) (A : Mat m n) :
    add_to_column A i j = A * add_to_column (1 : Mat n n) i j := by
  funext r c
  rw [Matrix.mul_apply]
  by_cases hci : c = i
  · simp only [add_to_column_apply, if_pos hci, mul_add]
    rw [Finset.sum_add_distrib, one_col_dot A r i, one_col_dot A r j]
  · simp only [add_to_column_apply, if_neg hci]
    exact (one_col_dot A r c).symm

theorem rswap_rswap (i j : Fin m) (S : Mat m n) : rswap i j (rswap i j S) = S := by
  funext r c
  by_cases hri : r = i
  · subst hri
    by_cases hji : j = r
    · simp [rswap_apply, hji]
    · simp [rswap_apply, hji]
  · by_cases hrj : r = j
    · subst hrj
      simp [rswap_apply, hri, (Ne.symm hri : i ≠ r)]
    · simp [rswap_apply, hri, hrj]

theorem rswap_comm (i j : Fin m) (S : Mat m n) : rswap i j S = rswap j i S := by
  funext r c
  simp only [rswap_apply]
  by_cases hri : r = i <;> by_cases hrj : r = j
  · have hij2 : i = j := hri.symm.trans hrj
    rw [if_pos hri, if_pos hrj, hij2]
  · rw [if_pos hri, if_neg hrj, if_pos hri]
  · rw [if_neg hri, if_pos hrj, if_pos hrj]
  · rw [if_neg hri, if_neg hrj, if_neg hrj, if_neg hri]

theorem rswap_one_mul_self (i j : Fin m) :
    rswap i j (1 : Mat m m) * rswap i j (1 : Mat m m) = 1 := by
  rw [← rswap_eq_mul, rswap_rswap]

theorem cswap_one_eq_rswap_one (i j : Fin n) :
    cswap i j (1 : Mat n n) = rswap i j (1 : Mat n n) := by
  funext r c
  by_cases hci : c = i <;> by_cases hcj : c = j <;>
    by_cases hri : r = i <;> by_cases hrj : r = j <;>
    simp_all [cswap_apply, rswap_apply, Matrix.one_apply] <;>
    simp_all [eq_comm]

theorem add_to_row_self_inv (i j : Fin m) (hij : i ≠ j) (S : Mat m n) :
    add_to_row (add_to_row S i j) i j = S := by
  funext r c
  by_cases hri : r = i <;>
    simp [add_to_row_apply, hri, Ne.symm hij, F2_add_self, add_assoc]

theorem add_to_row_one_mul_self (i j : Fin m) (hij : i ≠ j) :
    add_to_row (1 : Mat m m) i j * add_to_row (1 : Mat m m) i j = 1 := by
  rw [← add_to_row_eq_mul, add_to_row_self_inv i j hij]

theorem add_to_column_one_eq_add_to_row_one (i j : Fin m) (hij : i ≠ j) :
    add_to_column (1 : Mat m m) i j = add_to_row (1 : Mat m m) j i := by
  funext r c
  simp only [add_to_column_apply, add_to_row_apply]
  by_cases hci : c = i <;> by_cases hrj : r = j
  · subst hci; subst hrj
    simp [Matrix.one_apply, hij, Ne.symm hij]
  · subst hci
    simp [Matrix.one_apply, hrj]
  · subst hrj
    simp [Matrix.one_apply, hci, Ne.symm hci]
  · simp [Matrix.one_apply, hci, hrj]

theorem add_to_column_one_mul_self (i j : Fin n) (hij : i ≠ j) :
    add_to_column (1 : Mat n n) i j * add_to_column (1 : Mat n n) i j = 1 := by
  rw [add_to_column_one_eq_add_to_row_one i j hij]
  exact add_to_row_one_mul_self j i (Ne.symm hij)

theorem cswap_one_mul_self (i j : Fin n) :
    cswap i j (1 : Mat n n) * cswap i j 1 = 1 := by
  rw [cswap_one_eq_rswap_one, rswap_one_mul_self]

/-- Generic invariant-preservation principle for `List.foldl`. -/
theorem foldl_rec {α : Type u} {β : Type v} (P : α → Prop) (f : α → β → α) :
    ∀ (l : List β) (st : α), P st → (∀ a b, b ∈ l → P a → P (f a b)) →
      P (l.foldl f st)
  | [], _, h0, _ => h0
  | b :: tl, st, h0, hstep =>
    foldl_rec P f tl (f st b) (hstep st b (List.mem_cons_self b tl) h0)
      (fun a b' hb' => hstep a b' (List.mem_cons_of_mem b hb'))

/-! ## Pivot-search specification -/

theorem pivotInCol_some (M : Mat m n) (c : Fin n) :
    ∀ (fuel r0 : ℕ) (r : Fin m), pivotInCol M c fuel r0 = some r →
      r0 ≤ r.val ∧ M r c = 1 ∧
        ∀ r' : Fin m, r0 ≤ r'.val → r'.val < r.val → M r' c = 0 := by
  intro fuel
  induction fuel with
  | zero => intro r0 r h; exact absurd h (by simp [pivotInCol])
  | succ fuel ih =>
    intro r0 r h
    unfold pivotInCol at h
    by_cases hr0 : r0 < m
    · rw [dif_pos hr0] at h
      by_cases hone : M ⟨r0, hr0⟩ c = 1
      · rw [if_pos hone] at h
        obtain rfl : (⟨r0, hr0⟩ : Fin m) = r := Option.some_injective _ h
        exact ⟨le_refl _, hone, fun r' h1 h2 => absurd (lt_of_le_of_lt h1 h2) (lt_irrefl _)⟩
      · rw [if_neg hone] at h
        obtain ⟨h1, h2, h3⟩ := ih (r0 + 1) r h
        refine ⟨le_trans (Nat.le_succ r0) h1, h2, fun r' hr1 hr2 => ?_⟩
        rcases Nat.eq_or_lt_of_le hr1 with heq | hlt
        · have : r' = ⟨r0, hr0⟩ := Fin.ext heq.symm
          rw [this]; exact F2_eq_zero_of_ne_one _ hone
        · exact h3 r' hlt hr2
    · rw [dif_neg hr0] at h
      exact absurd h (by simp)

theorem pivotInCol_none (M : Mat m n) (c : Fin n) :
    ∀ (fuel r0 : ℕ), m ≤ fuel + r0 → pivotInCol M c fuel r0 = none →
      ∀ r : Fin m, r0 ≤ r.val → M r c = 0 := by
  intro fuel
  induction fuel with
  | zero =>
    intro r0 hle _ r hr
    exact absurd (lt_of_lt_of_le r.isLt (le_trans hle (Nat.le_of_eq (Nat.zero_add r0))))
      (Nat.not_lt.mpr hr)
  | succ fuel ih =>
    intro r0 hle h r hr
    unfold pivotInCol at h
    by_cases hr0 : r0 < m
    · rw [dif_pos hr0] at h
      by_cases hone : M ⟨r0, hr0⟩ c = 1
      · rw [if_pos hone] at h; exact absurd h (by simp)
      · rw [if_neg hone] at h
        rcases Nat.eq_or_lt_of_le hr with heq | hlt
        · have : r = ⟨r0, hr0⟩ := Fin.ext heq.symm
          rw [this]; exact F2_eq_zero_of_ne_one _ hone
        · exact ih (r0 + 1) (by omega) h r hlt
    · exact absurd (lt_of_le_of_lt hr r.isLt) hr0

theorem pivotScan_some (M : Mat m n) (s1 : ℕ) :
    ∀ (fuel c0 : ℕ) (p : Fin m × Fin n), pivotScan M s1 fuel c0 = some p →
      s1 ≤ p.1.val ∧ c0 ≤ p.2.val ∧ M p.1 p.2 = 1 ∧
        (∀ c' : Fin n, c0 ≤ c'.val → c'.val < p.2.val →
          ∀ r' : Fin m, s1 ≤ r'.val → M r' c' = 0) ∧
        (∀ r' : Fin m, s1 ≤ r'.val → r'.val < p.1.val → M r' p.2 = 0) := by
  intro fuel
  induction fuel with
  | zero => intro c0 p h; exact absurd h (by simp [pivotScan])
  | succ fuel ih =>
    intro c0 p h
    unfold pivotScan at h
    by_cases hc0 : c0 < n
    · rw [dif_pos hc0] at h
      rcases hcol : pivotInCol M ⟨c0, hc0⟩ m s1 with _ | r
      · rw [hcol] at h
        obtain ⟨h1, h2, h3, h4, h5⟩ := ih (c0 + 1) p h
        refine ⟨h1, le_trans (Nat.le_succ c0) h2, h3, fun c' hc1 hc2 r' hr' => ?_, h5⟩
        rcases Nat.eq_or_lt_of_le hc1 with heq | hlt
        · have : c' = ⟨c0, hc0⟩ := Fin.ext heq.symm
          rw [this]
          exact pivotInCol_none M ⟨c0, hc0⟩ m s1 (Nat.le_add_right m s1) hcol r' hr'
        · exact h4 c' hlt hc2 r' hr'
      · rw [hcol] at h
        obtain rfl : (r, (⟨c0, hc0⟩ : Fin n)) = p := Option.some_injective _ h
        obtain ⟨h1, h2, h3⟩ := pivotInCol_some M ⟨c0, hc0⟩ m s1 r hcol
        exact ⟨h1, le_refl _, h2,
          fun c' hc1 hc2 => absurd (lt_of_le_of_lt hc1 hc2) (lt_irrefl _), h3⟩
    · rw [dif_neg hc0] at h
      exact absurd h (by simp)

theorem pivotScan_none (M : Mat m n) (s1 : ℕ) :
    ∀ (fuel c0 : ℕ), n ≤ fuel + c0 → pivotScan M s1 fuel c0 = none →
      ∀ (r : Fin m) (c : Fin n), s1 ≤ r.val → c0 ≤ c.val → M r c = 0 := by
  intro fuel
  induction fuel with
  | zero =>
    intro c0 hle _ r c _ hc
    exact absurd (lt_of_le_of_lt hc c.isLt) (Nat.not_lt.mpr (le_trans hle (by omega)))
  | succ fuel ih =>
    intro c0 hle h r c hr hc
    unfold pivotScan at h
    by_cases hc0 : c0 < n
    · rw [dif_pos hc0] at h
      rcases hcol : pivotInCol M ⟨c0, hc0⟩ m s1 with _ | r'
      · rw [hcol] at h
        rcases Nat.eq_or_lt_of_le hc with heq | hlt
        · have : c = ⟨c0, hc0⟩ := Fin.ext heq.symm
          rw [this]
          exact pivotInCol_none M ⟨c0, hc0⟩ m s1 (Nat.le_add_right m s1) hcol r hr
        · exact ih (c0 + 1) (by omega) h r c hr hlt
      · rw [hcol] at h; exact absurd h (by simp)
    · exact absurd (lt_of_le_of_lt hc c.isLt) hc0

theorem get_next_pivot_none_default (M : Mat m n) (s : ℕ)
    (h : get_next_pivot M s none = none) :
    ∀ (r : Fin m) (c : Fin n), s ≤ r.val → s ≤ c.val → M r c = 0 :=
  pivotScan_none M s n s (Nat.le_add_right n s) h

theorem get_next_pivot_some_default (M : Mat m n) (s : ℕ) (p : Fin m × Fin n)
    (h : get_next_pivot M s none = some p) :
    s ≤ p.1.val ∧ s ≤ p.2.val ∧ M p.1 p.2 = 1 :=
  let r := pivotScan_some M s n s p h
  ⟨r.1, r.2.1, r.2.2.1⟩

/-! ## Invariant preservation through the elementary updates -/

theorem isUnit_of_self_inv {k : ℕ} (Q : Mat k k) (h : Q * Q = 1) : IsUnit Q :=
  ⟨⟨Q, Q, h, h⟩, rfl⟩

theorem swap_update_inv (M : Mat m n) (st : SNFState m n) (a b : Fin m)
    (h : SNFInvariant M st) :
    SNFInvariant M ⟨rswap a b st.S, rswap a b st.L, st.R, cswap b a st.Linv⟩ := by
  obtain ⟨h1, h2, h3⟩ := h
  refine ⟨?_, ?_, h3⟩
  · show rswap a b st.L * M * st.R = rswap a b st.S
    rw [rswap_eq_mul a b st.L, rswap_eq_mul a b st.S, ← h1, Matrix.mul_assoc,
      Matrix.mul_assoc, Matrix.mul_assoc]
  · show rswap a b st.L * cswap b a st.Linv = 1
    rw [rswap_eq_mul a b st.L, cswap_eq_mul b a st.Linv, cswap_one_eq_rswap_one,
      rswap_comm b a]
    calc rswap a b (1 : Mat m m) * st.L * (st.Linv * rswap a b (1 : Mat m m))
        = rswap a b (1 : Mat m m) * (st.L * st.Linv) * rswap a b (1 : Mat m m) := by
          rw [Matrix.mul_assoc, Matrix.mul_assoc, Matrix.mul_assoc]
      _ = 1 := by rw [h2, Matrix.mul_one, rswap_one_mul_self]

theorem cswap_update_inv (M : Mat m n) (st : SNFState m n) (a b : Fin n)
    (h : SNFInvariant M st) :
    SNFInvariant M ⟨cswap a b st.S, st.L, cswap a b st.R, st.Linv⟩ := by
  obtain ⟨h1, h2, h3⟩ := h
  refine ⟨?_, h2, ?_⟩
  · show st.L * M * cswap a b st.R = cswap a b st.S
    rw [cswap_eq_mul a b st.R, cswap_eq_mul a b st.S, ← h1, ← Matrix.mul_assoc]
  · show IsUnit (cswap a b st.R)
    rw [cswap_eq_mul a b st.R]
    exact h3.mul (isUnit_of_self_inv _ (cswap_one_mul_self a b))

theorem addrow_update_inv (M : Mat m n) (st : SNFState m n) (idx sm : Fin m)
    (hne : idx ≠ sm) (h : SNFInvariant M st) :
    SNFInvariant M
      ⟨add_to_row st.S idx sm, add_to_row st.L idx sm, st.R,
        add_to_column st.Linv sm idx⟩ := by
  obtain ⟨h1, h2, h3⟩ := h
  refine ⟨?_, ?_, h3⟩
  · show add_to_row st.L idx sm * M * st.R = add_to_row st.S idx sm
    rw [add_to_row_eq_mul idx sm st.L, add_to_row_eq_mul idx sm st.S, ← h1,
      Matrix.mul_assoc, Matrix.mul_assoc, Matrix.mul_assoc]
  · show add_to_row st.L idx sm * add_to_column st.Linv sm idx = 1
    rw [add_to_row_eq_mul idx sm st.L, add_to_column_eq_mul sm idx st.Linv,
      add_to_column_one_eq_add_to_row_one sm idx (Ne.symm hne)]
    calc add_to_row (1 : Mat m m) idx sm * st.L *
          (st.Linv * add_to_row (1 : Mat m m) idx sm)
        = add_to_row (1 : Mat m m) idx sm * (st.L * st.Linv) *
            add_to_row (1 : Mat m m) idx sm := by
          rw [Matrix.mul_assoc, Matrix.mul_assoc, Matrix.mul_assoc]
      _ = 1 := by rw [h2, Matrix.mul_one, add_to_row_one_mul_self idx sm hne]

theorem addcol_update_inv (M : Mat m n) (st : SNFState m n) (jdx sn : Fin n)
    (hne : jdx ≠ sn) (h : SNFInvariant M st) :
    SNFInvariant M
      ⟨add_to_column st.S jdx sn, st.L, add_to_column st.R jdx sn, st.Linv⟩ := by
  obtain ⟨h1, h2, h3⟩ := h
  refine ⟨?_, h2, ?_⟩
  · show st.L * M * add_to_column st.R jdx sn = add_to_column st.S jdx sn
    rw [add_to_column_eq_mul jdx sn st.R, add_to_column_eq_mul jdx sn st.S, ← h1,
      ← Matrix.mul_assoc]
  · show IsUnit (add_to_column st.R jdx sn)
    rw [add_to_column_eq_mul jdx sn st.R]
    exact h3.mul (isUnit_of_self_inv _ (add_to_column_one_mul_self jdx sn hne))

theorem snfRSwapMaybe_inv (M : Mat m n) (st : SNFState m n) (sm rdx : Fin m)
    (h : SNFInvariant M st) : SNFInvariant M (snfRSwapMaybe st sm rdx) := by
  unfold snfRSwapMaybe
  split_ifs
  · exact swap_update_inv M st sm rdx h
  · exact h

theorem snfCSwapMaybe_inv (M : Mat m n) (st : SNFState m n) (sn cdx : Fin n)
    (h : SNFInvariant M st) : SNFInvariant M (snfCSwapMaybe st sn cdx) := by
  unfold snfCSwapMaybe
  split_ifs
  · exact cswap_update_inv M st sn cdx h
  · exact h

theorem snfSwapPhase_inv (M : Mat m n) (st : SNFState m n) (sm : Fin m) (sn : Fin n)
    (rdx : Fin m) (cdx : Fin n) (h : SNFInvariant M st) :
    SNFInvariant M (snfSwapPhase st sm sn rdx cdx) :=
  snfCSwapMaybe_inv M _ sn cdx (snfRSwapMaybe_inv M st sm rdx h)

theorem snfRowPhase_inv (M : Mat m n) (st : SNFState m n) (sm : Fin m) (sn : Fin n)
    (h : SNFInvariant M st) : SNFInvariant M (snfRowPhase st sm sn) := by
  unfold snfRowPhase
  refine foldl_rec (SNFInvariant M) _ _ st h (fun a idx hmem ha => ?_)
  have hidx : sm.val + 1 ≤ idx.val := by
    have := (List.mem_filter.mp hmem).2
    have := (Bool.and_eq_true _ _).mp this
    exact of_decide_eq_true this.1
  exact addrow_update_inv M a idx sm (fun he => by omega) ha

theorem snfColPhase_inv (M : Mat m n) (st : SNFState m n) (sm : Fin m) (sn : Fin n)
    (h : SNFInvariant M st) : SNFInvariant M (snfColPhase st sm sn) := by
  unfold snfColPhase
  refine foldl_rec (SNFInvariant M) _ _ st h (fun a jdx hmem ha => ?_)
  have hjdx : sn.val + 1 ≤ jdx.val := by
    have := (List.mem_filter.mp hmem).2
    have := (Bool.and_eq_true _ _).mp this
    exact of_decide_eq_true this.1
  exact addcol_update_inv M a jdx sn (fun he => by omega) ha

theorem snfStep_inv (M : Mat m n) (st : SNFState m n) (s : ℕ) (hm : s < m)
    (hn : s < n) (rdx : Fin m) (cdx : Fin n) (h : SNFInvariant M st) :
    SNFInvariant M (snfStep st s hm hn rdx cdx) :=
  snfColPhase_inv M _ _ _ (snfRowPhase_inv M _ _ _ (snfSwapPhase_inv M st _ _ _ _ h))

/-! ## Entry-level description of the elimination folds -/

theorem foldl_addrow_proj (sm : Fin m) (l : List (Fin m)) :
    ∀ st : SNFState m n,
      (l.foldl (fun acc idx =>
        { acc with S := add_to_row acc.S idx sm, L := add_to_row acc.L idx sm,
                   Linv := add_to_column acc.Linv sm idx }) st).S =
      l.foldl (fun S idx => add_to_row S idx sm) st.S := by
  induction l with
  | nil => intro st; rfl
  | cons idx tl ih => intro st; rw [List.foldl_cons, List.foldl_cons, ih]

theorem foldl_addcol_proj (sn : Fin n) (l : List (Fin n)) :
    ∀ st : SNFState m n,
      (l.foldl (fun acc jdx =>
        { acc with S := add_to_column acc.S jdx sn,
                   R := add_to_column acc.R jdx sn }) st).S =
      l.foldl (fun S jdx => add_to_column S jdx sn) st.S := by
  induction l with
  | nil => intro st; rfl
  | cons jdx tl ih => intro st; rw [List.foldl_cons, List.foldl_cons, ih]

theorem foldl_addrow_rref_proj (sm : Fin m) (l : List (Fin m)) :
    ∀ st : RREFState m n,
      (l.foldl (fun acc idx =>
        { S := add_to_row acc.S idx sm, L := add_to_row acc.L idx sm,
          Linv := add_to_column acc.Linv sm idx }) st).S =
      l.foldl (fun S idx => add_to_row S idx sm) st.S := by
  induction l with
  | nil => intro st; rfl
  | cons idx tl ih => intro st; rw [List.foldl_cons, List.foldl_cons, ih]

theorem foldl_addrow_mat (sm : Fin m) :
    ∀ (l : List (Fin m)), l.Nodup → sm ∉ l →
      ∀ (S0 : Mat m n) (r : Fin m) (c : Fin n),
        (l.foldl (fun S idx => add_to_row S idx sm) S0) r c =
          if r ∈ l then S0 r c + S0 sm c else S0 r c := by
  intro l
  induction l with
  | nil => intro _ _ S0 r c; simp
  | cons idx tl ih =>
    intro hnd hsm S0 r c
    have hnd' : tl.Nodup := (List.nodup_cons.mp hnd).2
    have hidxtl : idx ∉ tl := (List.nodup_cons.mp hnd).1
    have hsm' : sm ∉ tl := fun hc => hsm (List.mem_cons_of_mem idx hc)
    have hsmidx : sm ≠ idx := fun he => hsm (he ▸ List.mem_cons_self idx tl)
    rw [List.foldl_cons, ih hnd' hsm']
    by_cases hrtl : r ∈ tl
    · have hrne : r ≠ idx := fun he => hidxtl (he ▸ hrtl)
      rw [if_pos hrtl, if_pos (List.mem_cons_of_mem idx hrtl),
        add_to_row_apply, if_neg hrne, add_to_row_apply, if_neg hsmidx]
    · rw [if_neg hrtl]
      by_cases hridx : r = idx
      · rw [if_pos (by rw [hridx]; exact List.mem_cons_self idx tl),
          add_to_row_apply, if_pos hridx, hridx]
      · rw [if_neg (by
            intro hc
            rcases List.mem_cons.mp hc with hh | hh
            · exact hridx hh
            · exact hrtl hh),
          add_to_row_apply, if_neg hridx]

theorem foldl_addcol_mat (sn : Fin n) :
    ∀ (l : List (Fin n)), l.Nodup → sn ∉ l →
      ∀ (S0 : Mat m n) (r : Fin m) (c : Fin n),
        (l.foldl (fun S jdx => add_to_column S jdx sn) S0) r c =
          if c ∈ l then S0 r c + S0 r sn else S0 r c := by
  intro l
  induction l with
  | nil => intro _ _ S0 r c; simp
  | cons jdx tl ih =>
    intro hnd hsn S0 r c
    have hnd' : tl.Nodup := (List.nodup_cons.mp hnd).2
    have hjdxtl : jdx ∉ tl := (List.nodup_cons.mp hnd).1
    have hsn' : sn ∉ tl := fun hc => hsn (List.mem_cons_of_mem jdx hc)
    have hsnjdx : sn ≠ jdx := fun he => hsn (he ▸ List.mem_cons_self jdx tl)
    rw [List.foldl_cons, ih hnd' hsn']
    by_cases hctl : c ∈ tl
    · have hcne : c ≠ jdx := fun he => hjdxtl (he ▸ hctl)
      rw [if_pos hctl, if_pos (List.mem_cons_of_mem jdx hctl),
        add_to_column_apply, if_neg hcne, add_to_column_apply, if_neg hsnjdx]
    · rw [if_neg hctl]
      by_cases hcjdx : c = jdx
      · rw [if_pos (by rw [hcjdx]; exact List.mem_cons_self jdx tl),
          add_to_column_apply, if_pos hcjdx, hcjdx]
      · rw [if_neg (by
            intro hc
            rcases List.mem_cons.mp hc with hh | hh
            · exact hcjdx hh
            · exact hctl hh),
          add_to_column_apply, if_neg hcjdx]

theorem snfRowPhase_S (st : SNFState m n) (sm : Fin m) (sn : Fin n)
    (r : Fin m) (c : Fin n) :
    (snfRowPhase st sm sn).S r c =
      if sm.val + 1 ≤ r.val ∧ st.S r sn = 1 then st.S r c + st.S sm c
      else st.S r c := by
  unfold snfRowPhase
  rw [foldl_addrow_proj]
  have hmem : ∀ x : Fin m,
      x ∈ (List.finRange m).filter
        (fun idx => decide (sm.val + 1 ≤ idx.val) && decide (st.S idx sn = 1)) ↔
      (sm.val + 1 ≤ x.val ∧ st.S x sn = 1) := by
    intro x
    rw [List.mem_filter, Bool.and_eq_true, decide_eq_true_iff, decide_eq_true_iff]
    exact ⟨fun h => h.2, fun h => ⟨List.mem_finRange x, h⟩⟩
  rw [foldl_addrow_mat sm _ ((List.nodup_finRange m).filter _)
    (fun hc => by have := (hmem sm).mp hc; omega)]
  by_cases hc : sm.val + 1 ≤ r.val ∧ st.S r sn = 1
  · rw [if_pos ((hmem r).mpr hc), if_pos hc]
  · rw [if_neg (fun hx => hc ((hmem r).mp hx)), if_neg hc]

theorem snfColPhase_S (st : SNFState m n) (sm : Fin m) (sn : Fin n)
    (r : Fin m) (c : Fin n) :
    (snfColPhase st sm sn).S r c =
      if sn.val + 1 ≤ c.val ∧ st.S sm c = 1 then st.S r c + st.S r sn
      else st.S r c := by
  unfold snfColPhase
  rw [foldl_addcol_proj]
  have hmem : ∀ x : Fin n,
      x ∈ (List.finRange n).filter
        (fun jdx => decide (sn.val + 1 ≤ jdx.val) && decide (st.S sm jdx = 1)) ↔
      (sn.val + 1 ≤ x.val ∧ st.S sm x = 1) := by
    intro x
    rw [List.mem_filter, Bool.and_eq_true, decide_eq_true_iff, decide_eq_true_iff]
    exact ⟨fun h => h.2, fun h => ⟨List.mem_finRange x, h⟩⟩
  rw [foldl_addcol_mat sn _ ((List.nodup_finRange n).filter _)
    (fun hc => by have := (hmem sn).mp hc; omega)]
  by_cases hc : sn.val + 1 ≤ c.val ∧ st.S sm c = 1
  · rw [if_pos ((hmem c).mpr hc), if_pos hc]
  · rw [if_neg (fun hx => hc ((hmem c).mp hx)), if_neg hc]

theorem rrefRowPhase_S (st : RREFState m n) (s1m : Fin m) (cdx : Fin n)
    (r : Fin m) (c : Fin n) :
    (rrefRowPhase st s1m cdx).S r c =
      if r.val ≠ s1m.val ∧ st.S r cdx = 1 then st.S r c + st.S s1m c
      else st.S r c := by
  unfold rrefRowPhase
  rw [foldl_addrow_rref_proj]
  have hmem : ∀ x : Fin m,
      x ∈ (List.finRange m).filter
        (fun idx => decide (idx.val ≠ s1m.val) && decide (st.S idx cdx = 1)) ↔
      (x.val ≠ s1m.val ∧ st.S x cdx = 1) := by
    intro x
    rw [List.mem_filter, Bool.and_eq_true, decide_eq_true_iff, decide_eq_true_iff]
    exact ⟨fun h => h.2, fun h => ⟨List.mem_finRange x, h⟩⟩
  rw [foldl_addrow_mat s1m _ ((List.nodup_finRange m).filter _)
    (fun hc => by have := (hmem s1m).mp hc; exact this.1 rfl)]
  by_cases hc : r.val ≠ s1m.val ∧ st.S r cdx = 1
  · rw [if_pos ((hmem r).mpr hc), if_pos hc]
  · rw [if_neg (fun hx => hc ((hmem r).mp hx)), if_neg hc]

theorem snfRSwapMaybe_S (st : SNFState m n) (sm rdx : Fin m) :
    (snfRSwapMaybe st sm rdx).S =
      if sm.val < rdx.val then rswap sm rdx st.S else st.S := by
  unfold snfRSwapMaybe; split_ifs <;> rfl

theorem snfCSwapMaybe_S (st : SNFState m n) (sn cdx : Fin n) :
    (snfCSwapMaybe st sn cdx).S =
      if sn.val < cdx.val then cswap sn cdx st.S else st.S := by
  unfold snfCSwapMaybe; split_ifs <;> rfl

theorem rrefSwapPhase_S (st : RREFState m n) (s1m rdx : Fin m) :
    (rrefSwapPhase st s1m rdx).S =
      if s1m.val < rdx.val then rswap s1m rdx st.S else st.S := by
  unfold rrefSwapPhase; split_ifs <;> rfl

/-! ## The Smith working matrix becomes diagonal -/

theorem rswap_diagband {s : ℕ} (a b : Fin m) (ha : s ≤ a.val) (hb : s ≤ b.val)
    (S : Mat m n) (h : DiagBand s S) : DiagBand s (rswap a b S) := by
  intro i j hij hlt
  rw [rswap_apply]
  by_cases hia : i = a
  · subst hia
    rw [if_pos rfl]
    rcases hlt with hi | hj
    · exact absurd hi (Nat.not_lt.mpr ha)
    · exact h b j (by omega) (Or.inr hj)
  · by_cases hib : i = b
    · subst hib
      rw [if_neg hia, if_pos rfl]
      rcases hlt with hi | hj
      · exact absurd hi (Nat.not_lt.mpr hb)
      · exact h a j (by omega) (Or.inr hj)
    · rw [if_neg hia, if_neg hib]
      exact h i j hij hlt

theorem cswap_diagband {s : ℕ} (a b : Fin n) (ha : s ≤ a.val) (hb : s ≤ b.val)
    (S : Mat m n) (h : DiagBand s S) : DiagBand s (cswap a b S) := by
  intro i j hij hlt
  rw [cswap_apply]
  by_cases hja : j = a
  · subst hja
    rw [if_pos rfl]
    rcases hlt with hi | hj
    · exact h i b (by omega) (Or.inl hi)
    · exact absurd hj (Nat.not_lt.mpr ha)
  · by_cases hjb : j = b
    · subst hjb
      rw [if_neg hja, if_pos rfl]
      rcases hlt with hi | hj
      · exact h i a (by omega) (Or.inl hi)
      · exact absurd hj (Nat.not_lt.mpr hb)
    · rw [if_neg hja, if_neg hjb]
      exact h i j hij hlt

theorem snfSwapPhase_diag (st : SNFState m n) (s : ℕ) (hm : s < m) (hn : s < n)
    (rdx : Fin m) (cdx : Fin n) (hrs : s ≤ rdx.val) (hcs : s ≤ cdx.val)
    (hpv : st.S rdx cdx = 1) (hdiag : DiagBand s st.S) :
    DiagBand s (snfSwapPhase st ⟨s, hm⟩ ⟨s, hn⟩ rdx cdx).S ∧
      (snfSwapPhase st ⟨s, hm⟩ ⟨s, hn⟩ rdx cdx).S ⟨s, hm⟩ ⟨s, hn⟩ = 1 := by
  have hT1 : DiagBand s (snfRSwapMaybe st ⟨s, hm⟩ rdx).S ∧
      (snfRSwapMaybe st ⟨s, hm⟩ rdx).S ⟨s, hm⟩ cdx = 1 := by
    rw [snfRSwapMaybe_S]
    by_cases h1 : (⟨s, hm⟩ : Fin m).val < rdx.val
    · rw [if_pos h1]
      refine ⟨rswap_diagband _ _ (le_refl s) hrs st.S hdiag, ?_⟩
      rw [rswap_apply, if_pos rfl]
      exact hpv
    · rw [if_neg h1]
      have : rdx = ⟨s, hm⟩ := Fin.ext (Nat.le_antisymm (Nat.not_lt.mp h1) hrs)
      exact ⟨hdiag, this ▸ hpv⟩
  unfold snfSwapPhase
  rw [snfCSwapMaybe_S]
  obtain ⟨hd1, hv1⟩ := hT1
  by_cases h2 : (⟨s, hn⟩ : Fin n).val < cdx.val
  · rw [if_pos h2]
    refine ⟨cswap_diagband _ _ (le_refl s) hcs _ hd1, ?_⟩
    rw [cswap_apply, if_pos rfl]
    exact hv1
  · rw [if_neg h2]
    have : cdx = ⟨s, hn⟩ := Fin.ext (Nat.le_antisymm (Nat.not_lt.mp h2) hcs)
    exact ⟨hd1, this ▸ hv1⟩

theorem snfRowPhase_diag (st : SNFState m n) (s : ℕ) (hm : s < m) (hn : s < n)
    (hdiag : DiagBand s st.S) (hpv : st.S ⟨s, hm⟩ ⟨s, hn⟩ = 1) :
    DiagBand s (snfRowPhase st ⟨s, hm⟩ ⟨s, hn⟩).S ∧
      (∀ r : Fin m, r.val ≠ s → (snfRowPhase st ⟨s, hm⟩ ⟨s, hn⟩).S r ⟨s, hn⟩ = 0) ∧
      (∀ c : Fin n, (snfRowPhase st ⟨s, hm⟩ ⟨s, hn⟩).S ⟨s, hm⟩ c = st.S ⟨s, hm⟩ c) := by
  refine ⟨?_, ?_, ?_⟩
  · intro i j hij hlt
    rw [snfRowPhase_S]
    by_cases hc : (⟨s, hm⟩ : Fin m).val + 1 ≤ i.val ∧ st.S i ⟨s, hn⟩ = 1
    · rw [if_pos hc]
      rcases hlt with hi | hj
      · exact absurd hc.1 (by simp; omega)
      · rw [hdiag i j hij (Or.inr hj), hdiag ⟨s, hm⟩ j (by simp; omega) (Or.inr hj),
          add_zero]
    · rw [if_neg hc]
      exact hdiag i j hij hlt
  · intro r hr
    rw [snfRowPhase_S]
    by_cases hrlt : r.val < s
    · rw [if_neg (by simp; omega)]
      exact hdiag r ⟨s, hn⟩ (by simpa using hr) (Or.inl hrlt)
    · by_cases hone : st.S r ⟨s, hn⟩ = 1
      · rw [if_pos ⟨by simp; omega, hone⟩, hone, hpv, F2_add_self]
      · rw [if_neg (fun hx => hone hx.2)]
        exact F2_eq_zero_of_ne_one _ hone
  · intro c
    rw [snfRowPhase_S]
    rw [if_neg (by simp)]

theorem snfStep_diag (st : SNFState m n) (s : ℕ) (hm : s < m) (hn : s < n)
    (rdx : Fin m) (cdx : Fin n) (hrs : s ≤ rdx.val) (hcs : s ≤ cdx.val)
    (hpv : st.S rdx cdx = 1) (hdiag : DiagBand s st.S) :
    DiagBand (s + 1) (snfStep st s hm hn rdx cdx).S := by
  obtain ⟨hd1, hp1⟩ := snfSwapPhase_diag st s hm hn rdx cdx hrs hcs hpv hdiag
  obtain ⟨hd2, hcol2, hrow2⟩ :=
    snfRowPhase_diag (snfSwapPhase st ⟨s, hm⟩ ⟨s, hn⟩ rdx cdx) s hm hn hd1 hp1
  have hp2 : (snfRowPhase (snfSwapPhase st ⟨s, hm⟩ ⟨s, hn⟩ rdx cdx) ⟨s, hm⟩
      ⟨s, hn⟩).S ⟨s, hm⟩ ⟨s, hn⟩ = 1 := by
    rw [hrow2]; exact hp1
  intro i j hij hlt
  show (snfColPhase (snfRowPhase (snfSwapPhase st ⟨s, hm⟩ ⟨s, hn⟩ rdx cdx)
    ⟨s, hm⟩ ⟨s, hn⟩) ⟨s, hm⟩ ⟨s, hn⟩).S i j = 0
  rw [snfColPhase_S]
  set U := (snfRowPhase (snfSwapPhase st ⟨s, hm⟩ ⟨s, hn⟩ rdx cdx) ⟨s, hm⟩ ⟨s, hn⟩).S
    with hU
  by_cases hjlt : j.val < s
  · rw [if_neg (by simp; omega)]
    exact hd2 i j hij (Or.inr hjlt)
  · by_cases hjeq : j.val = s
    · have : j = ⟨s, hn⟩ := Fin.ext hjeq
      subst this
      rw [if_neg (by simp)]
      exact hcol2 i (by simpa using hij)
    · have hjgt : s + 1 ≤ j.val := by omega
      have hile : i.val < s + 1 := by
        rcases hlt with hi | hj
        · exact hi
        · omega
      by_cases hieq : i.val = s
      · have hi' : i = ⟨s, hm⟩ := Fin.ext hieq
        subst hi'
        by_cases hone : U ⟨s, hm⟩ j = 1
        · rw [if_pos ⟨by simpa using hjgt, hone⟩, hone, hp2, F2_add_self]
        · rw [if_neg (fun hx => hone hx.2)]
          exact F2_eq_zero_of_ne_one _ hone
      · have hilt : i.val < s := by omega
        by_cases hcond : (⟨s, hn⟩ : Fin n).val + 1 ≤ j.val ∧ U ⟨s, hm⟩ j = 1
        · rw [if_pos hcond, hd2 i j hij (Or.inl hilt),
            hcol2 i (by omega), add_zero]
        · rw [if_neg hcond]
          exact hd2 i j hij (Or.inl hilt)

theorem snfAux_succ (fuel s : ℕ) (st : SNFState m n) :
    snfAux m n (fuel + 1) s st =
      match get_next_pivot st.S s none with
      | none => st
      | some (rdx, cdx) =>
        if h : s < m ∧ s < n then
          snfAux m n fuel (s + 1) (snfStep st s h.1 h.2 rdx cdx)
        else st := rfl

theorem snfAux_correct (M : Mat m n) :
    ∀ (fuel s : ℕ) (st : SNFState m n), fuel + s = min m n →
      SNFInvariant M st → DiagBand s st.S →
      SNFInvariant M (snfAux m n fuel s st) ∧ QuasiDiag (snfAux m n fuel s st).S := by
  intro fuel
  induction fuel with
  | zero =>
    intro s st hfs hinv hdiag
    refine ⟨hinv, fun i j hij => ?_⟩
    apply hdiag i j hij
    have hs : s = min m n := by omega
    rcases le_total m n with hmn | hnm
    · exact Or.inl (by rw [hs, Nat.min_eq_left hmn]; exact i.isLt)
    · exact Or.inr (by rw [hs, Nat.min_eq_right hnm]; exact j.isLt)
  | succ fuel ih =>
    intro s st hfs hinv hdiag
    have hsmin : s < min m n := by omega
    have hsm : s < m := lt_of_lt_of_le hsmin (min_le_left m n)
    have hsn : s < n := lt_of_lt_of_le hsmin (min_le_right m n)
    rcases hpiv : get_next_pivot st.S s none with _ | p
    · have heq : snfAux m n (fuel + 1) s st = st := by
        rw [snfAux_succ, hpiv]
      rw [heq]
      refine ⟨hinv, fun i j hij => ?_⟩
      by_cases hlt : i.val < s ∨ j.val < s
      · exact hdiag i j hij hlt
      · push_neg at hlt
        exact get_next_pivot_none_default st.S s hpiv i j hlt.1 hlt.2
    · obtain ⟨rdx, cdx⟩ := p
      have heq : snfAux m n (fuel + 1) s st =
          snfAux m n fuel (s + 1) (snfStep st s hsm hsn rdx cdx) := by
        rw [snfAux_succ, hpiv]
        exact dif_pos ⟨hsm, hsn⟩
      rw [heq]
      obtain ⟨h1, h2, h3⟩ := get_next_pivot_some_default st.S s (rdx, cdx) hpiv
      exact ih (s + 1) _ (by omega) (snfStep_inv M st s hsm hsn rdx cdx hinv)
        (snfStep_diag st s hsm hsn rdx cdx h1 h2 h3 hdiag)

/-- Structural correctness of the Smith reduction: transformations compose
correctly, the left inverse is genuine, `R` is invertible and the final
working matrix is diagonal. -/
theorem smith_normal_form_struct (M : Mat m n) :
    (smith_normal_form_mod2 M).1 * M * (smith_normal_form_mod2 M).2.1 =
        (smith_normal_form_mod2 M).2.2.1 ∧
      (smith_normal_form_mod2 M).1 * (smith_normal_form_mod2 M).2.2.2 = 1 ∧
      IsUnit (smith_normal_form_mod2 M).2.1 ∧
      QuasiDiag (smith_normal_form_mod2 M).2.2.1 := by
  obtain ⟨⟨ha, hb, hc⟩, hqd⟩ := snfAux_correct M (min m n) 0 ⟨M, 1, 1, 1⟩
    (by omega)
    ⟨by rw [Matrix.one_mul, Matrix.mul_one], by rw [Matrix.one_mul], isUnit_one⟩
    (fun i j _ hlt => by
      rcases hlt with h | h
      · exact absurd h (Nat.not_lt_zero _)
      · exact absurd h (Nat.not_lt_zero _))
  exact ⟨ha, hb, hc, hqd⟩

/-! ## Rank of a quasi-diagonal matrix -/

theorem idInj_apply (a b : ℕ) (i : Fin a) (j : Fin b) :
    idInj a b i j = if i.val = j.val then 1 else 0 := rfl

theorem idInj_mul_apply {a b c : ℕ} (B : Matrix (Fin b) (Fin c) F2)
    (i : Fin a) (j : Fin c) :
    (idInj a b * B) i j = if h : i.val < b then B ⟨i.val, h⟩ j else 0 := by
  rw [Matrix.mul_apply]
  by_cases h : i.val < b
  · rw [dif_pos h, Finset.sum_eq_single (⟨i.val, h⟩ : Fin b)]
    · rw [idInj_apply, if_pos rfl, one_mul]
    · intro t _ ht
      rw [idInj_apply, if_neg (fun he => ht (Fin.ext he.symm)), zero_mul]
    · intro hb; exact absurd (Finset.mem_univ _) hb
  · rw [dif_neg h]
    apply Finset.sum_eq_zero
    intro t _
    rw [idInj_apply, if_neg (fun he => h (lt_of_eq_of_lt he t.isLt)), zero_mul]

theorem mul_idInj_apply {a b c : ℕ} (B : Matrix (Fin a) (Fin b) F2)
    (i : Fin a) (j : Fin c) :
    (B * idInj b c) i j = if h : j.val < b then B i ⟨j.val, h⟩ else 0 := by
  rw [Matrix.mul_apply]
  by_cases h : j.val < b
  · rw [dif_pos h, Finset.sum_eq_single (⟨j.val, h⟩ : Fin b)]
    · rw [idInj_apply, if_pos rfl, mul_one]
    · intro t _ ht
      rw [idInj_apply, if_neg (fun he => ht (Fin.ext he)), mul_zero]
    · intro hb; exact absurd (Finset.mem_univ _) hb
  · rw [dif_neg h]
    apply Finset.sum_eq_zero
    intro t _
    rw [idInj_apply, if_neg (fun he => h (lt_of_eq_of_lt he.symm t.isLt)), mul_zero]

theorem quasiDiag_rank (S : Mat m n) (h : QuasiDiag S) : S.rank = diagOnes S := by
  have hdecompA : S = idInj m (min m n) * Matrix.diagonal (diagVec S) * idInj (min m n) n := by
    funext i j
    rw [mul_idInj_apply]
    by_cases hjk : j.val < min m n
    · rw [dif_pos hjk, idInj_mul_apply]
      by_cases hik : i.val < min m n
      · rw [dif_pos hik]
        by_cases hij : i.val = j.val
        · have heq : (⟨i.val, hik⟩ : Fin (min m n)) = ⟨j.val, hjk⟩ := Fin.ext hij
          rw [heq, Matrix.diagonal_apply_eq]
          show S i j = S (embedRow m n ⟨j.val, hjk⟩) (embedCol m n ⟨j.val, hjk⟩)
          have hi2 : i = embedRow m n ⟨j.val, hjk⟩ := Fin.ext hij
          have hj2 : j = embedCol m n ⟨j.val, hjk⟩ := Fin.ext rfl
          rw [← hi2, ← hj2]
        · have hne : (⟨i.val, hik⟩ : Fin (min m n)) ≠ ⟨j.val, hjk⟩ :=
            fun he => hij (congrArg Fin.val he)
          rw [Matrix.diagonal_apply_ne _ hne]
          exact h i j hij
      · have hij : i.val ≠ j.val := fun he => hik (he ▸ hjk)
        rw [dif_neg hik]
        exact h i j hij
    · have hij : i.val ≠ j.val := by
        intro he
        exact hjk (by rw [← he]; have := i.isLt; have := j.isLt; omega)
      rw [dif_neg hjk]
      exact h i j hij
  have hdecompB : Matrix.diagonal (diagVec S) = idInj (min m n) m * S * idInj n (min m n) := by
    funext a b
    rw [mul_idInj_apply, dif_pos (lt_of_lt_of_le b.isLt (min_le_right m n)),
      idInj_mul_apply, dif_pos (lt_of_lt_of_le a.isLt (min_le_left m n))]
    by_cases hab : a = b
    · subst hab
      rw [Matrix.diagonal_apply_eq]
      rfl
    · rw [Matrix.diagonal_apply_ne _ hab]
      exact (h _ _ (fun he => hab (Fin.ext he))).symm
  have hle1 : S.rank ≤ (Matrix.diagonal (diagVec S)).rank := by
    conv_lhs => rw [hdecompA]
    exact le_trans
      (Matrix.rank_mul_le_left (idInj m (min m n) * Matrix.diagonal (diagVec S))
        (idInj (min m n) n))
      (Matrix.rank_mul_le_right (idInj m (min m n)) (Matrix.diagonal (diagVec S)))
  have hle2 : (Matrix.diagonal (diagVec S)).rank ≤ S.rank := by
    rw [hdecompB]
    exact le_trans
      (Matrix.rank_mul_le_left (idInj (min m n) m * S) (idInj n (min m n)))
      (Matrix.rank_mul_le_right (idInj (min m n) m) S)
  have hrank : S.rank = (Matrix.diagonal (diagVec S)).rank := le_antisymm hle1 hle2
  rw [hrank, Matrix.rank_diagonal, Fintype.card_subtype]
  unfold diagOnes
  congr 1
  apply Finset.filter_congr
  intro i _
  simp only [ne_eq, decide_eq_decide]
  exact F2_ne_zero_iff _

/-- The number of diagonal ones of the Smith form of `M` is the rank of `M`
over the two-element field. -/
theorem snf_diagOnes_eq_rank (M : Mat m n) :
    diagOnes (smith_normal_form_mod2 M).2.2.1 = M.rank := by
  obtain ⟨hLMR, hLLinv, hRunit, hqd⟩ := smith_normal_form_struct M
  have hLdet : IsUnit (smith_normal_form_mod2 M).1.det := by
    have hdet := congrArg Matrix.det hLLinv
    rw [Matrix.det_mul, Matrix.det_one] at hdet
    exact isUnit_of_mul_eq_one _ _ hdet
  have hRdet : IsUnit (smith_normal_form_mod2 M).2.1.det :=
    (Matrix.isUnit_iff_isUnit_det _).mp hRunit
  have h1 : (smith_normal_form_mod2 M).2.2.1.rank = M.rank := by
    rw [← hLMR]
    rw [Matrix.rank_mul_eq_left_of_isUnit_det _ _ hRdet]
    rw [Matrix.rank_mul_eq_right_of_isUnit_det _ _ hLdet]
  rw [← quasiDiag_rank _ hqd, h1]

/-- C1: for every rectangular 0/1 matrix `M`, `smith_normal_form_mod2 M`
returns `L, R, S, Linv` with `L*M*R = S` over GF(2), `S` diagonal with
entries in 0/1, `L*Linv` the identity, and the number of ones on the
diagonal of `S` equal to the rank of `M` over GF(2). -/
theorem C1_smith_normal_form_correct (m n : ℕ) (M : Mat m n) :
    (smith_normal_form_mod2 M).1 * M * (smith_normal_form_mod2 M).2.1 =
        (smith_normal_form_mod2 M).2.2.1 ∧
      (∀ (i : Fin m) (j : Fin n), i.val ≠ j.val →
        (smith_normal_form_mod2 M).2.2.1 i j = 0) ∧
      (∀ (i : Fin m) (j : Fin n),
        (smith_normal_form_mod2 M).2.2.1 i j = 0 ∨
          (smith_normal_form_mod2 M).2.2.1 i j = 1) ∧
      (smith_normal_form_mod2 M).1 * (smith_normal_form_mod2 M).2.2.2 = 1 ∧
      diagOnes (smith_normal_form_mod2 M).2.2.1 = M.rank := by
  obtain ⟨hLMR, hLLinv, _, hqd⟩ := smith_normal_form_struct M
  exact ⟨hLMR, hqd, fun i j => by
    rcases (by decide : ∀ x : F2, x = 0 ∨ x = 1) ((smith_normal_form_mod2 M).2.2.1 i j)
      with h | h
    · exact Or.inl h
    · exact Or.inr h, hLLinv, snf_diagOnes_eq_rank M⟩

/-! ## Row-echelon reduction: bookkeeping invariant -/

theorem rref_swap_update_inv (M : Mat m n) (st : RREFState m n) (a b : Fin m)
    (h : RREFInvariant M st) :
    RREFInvariant M ⟨rswap a b st.S, rswap a b st.L, cswap b a st.Linv⟩ := by
  obtain ⟨h1, h2⟩ := h
  constructor
  · show rswap a b st.L * M = rswap a b st.S
    rw [rswap_eq_mul a b st.L, rswap_eq_mul a b st.S, ← h1, Matrix.mul_assoc]
  · show rswap a b st.L * cswap b a st.Linv = 1
    rw [rswap_eq_mul a b st.L, cswap_eq_mul b a st.Linv, cswap_one_eq_rswap_one,
      rswap_comm b a]
    calc rswap a b (1 : Mat m m) * st.L * (st.Linv * rswap a b (1 : Mat m m))
        = rswap a b (1 : Mat m m) * (st.L * st.Linv) * rswap a b (1 : Mat m m) := by
          rw [Matrix.mul_assoc, Matrix.mul_assoc, Matrix.mul_assoc]
      _ = 1 := by rw [h2, Matrix.mul_one, rswap_one_mul_self]

theorem rref_addrow_update_inv (M : Mat m n) (st : RREFState m n) (idx sm : Fin m)
    (hne : idx ≠ sm) (h : RREFInvariant M st) :
    RREFInvariant M
      ⟨add_to_row st.S idx sm, add_to_row st.L idx sm,
        add_to_column st.Linv sm idx⟩ := by
  obtain ⟨h1, h2⟩ := h
  constructor
  · show add_to_row st.L idx sm * M = add_to_row st.S idx sm
    rw [add_to_row_eq_mul idx sm st.L, add_to_row_eq_mul idx sm st.S, ← h1,
      Matrix.mul_assoc]
  · show add_to_row st.L idx sm * add_to_column st.Linv sm idx = 1
    rw [add_to_row_eq_mul idx sm st.L, add_to_column_eq_mul sm idx st.Linv,
      add_to_column_one_eq_add_to_row_one sm idx (Ne.symm hne)]
    calc add_to_row (1 : Mat m m) idx sm * st.L *
          (st.Linv * add_to_row (1 : Mat m m) idx sm)
        = add_to_row (1 : Mat m m) idx sm * (st.L * st.Linv) *
            add_to_row (1 : Mat m m) idx sm := by
          rw [Matrix.mul_assoc, Matrix.mul_assoc, Matrix.mul_assoc]
      _ = 1 := by rw [h2, Matrix.mul_one, add_to_row_one_mul_self idx sm hne]

theorem rrefSwapPhase_inv (M : Mat m n) (st : RREFState m n) (s1m rdx : Fin m)
    (h : RREFInvariant M st) : RREFInvariant M (rrefSwapPhase st s1m rdx) := by
  unfold rrefSwapPhase
  split_ifs
  · exact rref_swap_update_inv M st s1m rdx h
  · exact h

theorem rrefRowPhase_inv (M : Mat m n) (st : RREFState m n) (s1m : Fin m)
    (cdx : Fin n) (h : RREFInvariant M st) :
    RREFInvariant M (rrefRowPhase st s1m cdx) := by
  unfold rrefRowPhase
  refine foldl_rec (RREFInvariant M) _ _ st h (fun a idx hmem ha => ?_)
  have hidx : idx.val ≠ s1m.val := by
    have := (List.mem_filter.mp hmem).2
    have := (Bool.and_eq_true _ _).mp this
    exact of_decide_eq_true this.1
  exact rref_addrow_update_inv M a idx s1m (fun he => hidx (congrArg Fin.val he)) ha

theorem rrefStep_bookkeeping_inv (M : Mat m n) (st : RREFState m n) (s1 : ℕ)
    (hs1 : s1 < m) (rdx : Fin m) (cdx : Fin n) (h : RREFInvariant M st) :
    RREFInvariant M (rrefStep st s1 hs1 rdx cdx) :=
  rrefRowPhase_inv M _ _ _ (rrefSwapPhase_inv M st _ _ h)

theorem rrefStep_loopinv (M : Mat m n) (st : RREFState m n) (s1 s2 : ℕ)
    (hs1 : s1 < m) (rdx : Fin m) (cdx : Fin n) (pcol : ℕ → Fin n)
    (H : RREFLoopInv M st s1 s2 pcol)
    (hr : s1 ≤ rdx.val) (hc : s2 ≤ cdx.val) (hpv : st.S rdx cdx = 1)
    (hmin : ∀ c' : Fin n, s2 ≤ c'.val → c'.val < cdx.val →
      ∀ r' : Fin m, s1 ≤ r'.val → st.S r' c' = 0) :
    RREFLoopInv M (rrefStep st s1 hs1 rdx cdx) (s1 + 1) (cdx.val + 1)
      (fun i => if i = s1 then cdx else pcol i) := by
  obtain ⟨hinv, hs1m, _, hmono, hbound, hclean1, hclean0, hskip⟩ := H
  have hTS := rrefSwapPhase_S st ⟨s1, hs1⟩ rdx
  -- rows strictly above the pivot row are untouched by the swap
  have F1 : ∀ r : Fin m, r.val < s1 → ∀ c : Fin n,
      (rrefSwapPhase st ⟨s1, hs1⟩ rdx).S r c = st.S r c := by
    intro r hrlt c
    rw [hTS]
    split_ifs with hsw
    · have h1 : r ≠ ⟨s1, hs1⟩ := fun he => by
        rw [he] at hrlt; exact lt_irrefl s1 hrlt
      have h2 : r ≠ rdx := fun he => by
        rw [he] at hrlt; omega
      rw [rswap_apply, if_neg h1, if_neg h2]
    · rfl
  -- the swap permutes the not-yet-fixed rows among themselves
  have F2 : ∀ r : Fin m, s1 ≤ r.val → ∀ c : Fin n,
      ∃ r2 : Fin m, s1 ≤ r2.val ∧
        (rrefSwapPhase st ⟨s1, hs1⟩ rdx).S r c = st.S r2 c := by
    intro r hrge c
    rw [hTS]
    split_ifs with hsw
    · by_cases h1 : r = ⟨s1, hs1⟩
      · refine ⟨rdx, hr, ?_⟩
        rw [rswap_apply, if_pos h1]
      · by_cases h2 : r = rdx
        · refine ⟨⟨s1, hs1⟩, le_refl s1, ?_⟩
          rw [rswap_apply, if_neg h1, if_pos h2]
        · refine ⟨r, hrge, ?_⟩
          rw [rswap_apply, if_neg h1, if_neg h2]
    · exact ⟨r, hrge, rfl⟩
  -- the pivot value lands in the pivot row
  have F3 : (rrefSwapPhase st ⟨s1, hs1⟩ rdx).S ⟨s1, hs1⟩ cdx = 1 := by
    rw [hTS]
    split_ifs with hsw
    · rw [rswap_apply, if_pos rfl]
      exact hpv
    · have : rdx = ⟨s1, hs1⟩ := Fin.ext (Nat.le_antisymm (Nat.not_lt.mp hsw) hr)
      rw [← this]
      exact hpv
  have hU : ∀ (r : Fin m) (c : Fin n),
      (rrefStep st s1 hs1 rdx cdx).S r c =
        if r.val ≠ s1 ∧ (rrefSwapPhase st ⟨s1, hs1⟩ rdx).S r cdx = 1 then
          (rrefSwapPhase st ⟨s1, hs1⟩ rdx).S r c +
            (rrefSwapPhase st ⟨s1, hs1⟩ rdx).S ⟨s1, hs1⟩ c
        else (rrefSwapPhase st ⟨s1, hs1⟩ rdx).S r c :=
    fun r c => rrefRowPhase_S (rrefSwapPhase st ⟨s1, hs1⟩ rdx) ⟨s1, hs1⟩ cdx r c
  -- pivot columns of earlier pivots have a zero in the pivot row
  have hTs1col : ∀ i, i < s1 →
      (rrefSwapPhase st ⟨s1, hs1⟩ rdx).S ⟨s1, hs1⟩ (pcol i) = 0 := by
    intro i hi
    obtain ⟨r2, hr2ge, hr2⟩ := F2 ⟨s1, hs1⟩ (le_refl s1) (pcol i)
    rw [hr2]
    exact hclean0 i hi r2 (by omega)
  -- every entry of a fully handled column in a not-yet-fixed row is zero
  have hTzero : ∀ c : Fin n, c.val < cdx.val + 1 → c ≠ cdx →
      (∀ i, i < s1 → pcol i ≠ c) →
      ∀ r : Fin m, s1 ≤ r.val →
        (rrefSwapPhase st ⟨s1, hs1⟩ rdx).S r c = 0 := by
    intro c hclt hccdx hnp r hrge
    obtain ⟨r2, hr2ge, hr2⟩ := F2 r hrge c
    rw [hr2]
    by_cases hcs2 : c.val < s2
    · exact hskip c hcs2 hnp r2 hr2ge
    · have : c.val < cdx.val := by
        rcases Nat.lt_or_ge c.val cdx.val with h | h
        · exact h
        · exact absurd (Fin.ext (by omega) : c = cdx) hccdx
      exact hmin c (by omega) this r2 hr2ge
  constructor
  · exact rrefStep_bookkeeping_inv M st s1 hs1 rdx cdx hinv
  · omega
  · intro h0; exact absurd h0 (Nat.succ_ne_zero _)
  · -- monotone pivot columns
    intro i j hij hj
    by_cases hjs : j = s1
    · have hine : ¬ i = s1 := by omega
      rw [if_pos hjs, if_neg hine]
      calc (pcol i).val < s2 := hbound i (by omega)
        _ ≤ cdx.val := hc
    · have hjlt : j < s1 := by omega
      have hine : ¬ i = s1 := by omega
      rw [if_neg hine, if_neg hjs]
      exact hmono i j hij hjlt
  · -- bound by the new column pointer
    intro i hi
    by_cases his : i = s1
    · rw [if_pos his]
      omega
    · have := hbound i (by omega)
      rw [if_neg his]
      omega
  · -- the pivot entries are ones
    intro r hrlt
    by_cases hrs : r.val = s1
    · rw [if_pos hrs]
      have hrmk : r = ⟨s1, hs1⟩ := Fin.ext hrs
      rw [hU, if_neg (fun hx => hx.1 hrs), hrmk]
      exact F3
    · have hrlt' : r.val < s1 := by omega
      rw [if_neg hrs, hU]
      by_cases hcond : r.val ≠ s1 ∧ (rrefSwapPhase st ⟨s1, hs1⟩ rdx).S r cdx = 1
      · rw [if_pos hcond, F1 r hrlt' (pcol r.val), hTs1col r.val hrlt',
          hclean1 r hrlt', add_zero]
      · rw [if_neg hcond, F1 r hrlt' (pcol r.val)]
        exact hclean1 r hrlt'
  · -- the pivot columns are otherwise zero
    intro i hi r hrne
    by_cases his : i = s1
    · rw [if_pos his, hU]
      have hrne' : r.val ≠ s1 := by omega
      by_cases hcond : r.val ≠ s1 ∧ (rrefSwapPhase st ⟨s1, hs1⟩ rdx).S r cdx = 1
      · rw [if_pos hcond, hcond.2, F3, F2_add_self]
      · rw [if_neg hcond]
        rcases Decidable.em ((rrefSwapPhase st ⟨s1, hs1⟩ rdx).S r cdx = 1) with h1 | h1
        · exact absurd ⟨hrne', h1⟩ hcond
        · exact F2_eq_zero_of_ne_one _ h1
    · have hilt : i < s1 := by omega
      rw [if_neg his]
      have hcol0 : ∀ x : Fin m, x.val ≠ i →
          (rrefSwapPhase st ⟨s1, hs1⟩ rdx).S x (pcol i) = 0 := by
        intro x hx
        by_cases hxlt : x.val < s1
        · rw [F1 x hxlt]
          exact hclean0 i hilt x hx
        · obtain ⟨x2, hx2ge, hx2⟩ := F2 x (by omega) (pcol i)
          rw [hx2]
          exact hclean0 i hilt x2 (by omega)
      rw [hU]
      by_cases hcond : r.val ≠ s1 ∧ (rrefSwapPhase st ⟨s1, hs1⟩ rdx).S r cdx = 1
      · rw [if_pos hcond, hcol0 r hrne,
          hcol0 ⟨s1, hs1⟩ (show s1 ≠ i by omega), add_zero]
      · rw [if_neg hcond]
        exact hcol0 r hrne
  · -- columns left of the new pointer that hold no pivot are zero below
    intro c hclt hnp r hrge
    have hccdx : c ≠ cdx := by
      have h0 := hnp s1 (by omega)
      rw [if_pos rfl] at h0
      exact fun he => h0 he.symm
    have hnp' : ∀ i, i < s1 → pcol i ≠ c := by
      intro i hi
      have h0 := hnp i (by omega)
      rw [if_neg (show ¬ i = s1 by omega)] at h0
      exact h0
    rw [hU]
    by_cases hcond : r.val ≠ s1 ∧ (rrefSwapPhase st ⟨s1, hs1⟩ rdx).S r cdx = 1
    · rw [if_pos hcond, hTzero c hclt hccdx hnp' r (by omega),
        hTzero c hclt hccdx hnp' ⟨s1, hs1⟩ (le_refl s1), add_zero]
    · rw [if_neg hcond]
      exact hTzero c hclt hccdx hnp' r (by omega)

theorem rrefAux_succ (fuel s1 s2 : ℕ) (st : RREFState m n) :
    rrefAux m n (fuel + 1) s1 s2 st =
      if s2 ≤ n ∧ s1 ≤ m then
        match get_next_pivot st.S s1 (some s2) with
        | none => st
        | some (rdx, cdx) =>
          if hs1 : s1 < m then
            rrefAux m n fuel (s1 + 1) (cdx.val + 1) (rrefStep st s1 hs1 rdx cdx)
          else st
      else st := rfl

/-- With the source quirk neutralised by the invariant `s2 = 0 → s1 = 0`,
the explicit-`s2` pivot search is a plain scan from `(s1, s2)`. -/
theorem get_next_pivot_some_arg (M : Mat m n) (s1 s2 : ℕ) (h : s2 = 0 → s1 = 0) :
    get_next_pivot M s1 (some s2) = pivotScan M s1 n s2 := by
  show pivotScan M s1 n (if s2 = 0 then s1 else s2) = pivotScan M s1 n s2
  by_cases h0 : s2 = 0
  · rw [if_pos h0, h h0, h0]
  · rw [if_neg h0]

theorem rrefAux_correct (M : Mat m n) :
    ∀ (fuel s1 s2 : ℕ) (st : RREFState m n) (pcol : ℕ → Fin n),
      m + 1 ≤ fuel + s1 →
      RREFLoopInv M st s1 s2 pcol →
      ∃ (t : ℕ) (pc : ℕ → Fin n),
        t ≤ m ∧
        RREFInvariant M (rrefAux m n fuel s1 s2 st) ∧
        (∀ i j, i < j → j < t → (pc i).val < (pc j).val) ∧
        (∀ r : Fin m, r.val < t → (rrefAux m n fuel s1 s2 st).S r (pc r.val) = 1) ∧
        (∀ i, i < t → ∀ r : Fin m, r.val ≠ i →
          (rrefAux m n fuel s1 s2 st).S r (pc i) = 0) ∧
        (∀ r : Fin m, t ≤ r.val → ∀ c : Fin n,
          (rrefAux m n fuel s1 s2 st).S r c = 0) := by
  intro fuel
  induction fuel with
  | zero =>
    intro s1 s2 st pcol hfuel H
    exact absurd hfuel (by have := H.hs1m; omega)
  | succ fuel ih =>
    intro s1 s2 st pcol hfuel H
    by_cases hcond : s2 ≤ n ∧ s1 ≤ m
    · rcases hpiv : get_next_pivot st.S s1 (some s2) with _ | p
      · have heq : rrefAux m n (fuel + 1) s1 s2 st = st := by
          rw [rrefAux_succ, if_pos hcond, hpiv]
        rw [heq]
        have hscan : pivotScan st.S s1 n s2 = none := by
          rw [← get_next_pivot_some_arg st.S s1 s2 H.hs20]
          exact hpiv
        have hzero := pivotScan_none st.S s1 n s2 (Nat.le_add_right n s2) hscan
        refine ⟨s1, pcol, H.hs1m, H.inv, fun i j hij hj => H.mono i j hij hj,
          fun r hr => H.clean1 r hr, fun i hi r hr => H.clean0 i hi r hr, ?_⟩
        intro r hrge c
        by_cases hcs2 : c.val < s2
        · by_cases hpc : ∃ i, i < s1 ∧ pcol i = c
          · obtain ⟨i, hi, hieq⟩ := hpc
            rw [← hieq]
            exact H.clean0 i hi r (by omega)
          · push_neg at hpc
            exact H.skipped c hcs2 (fun i hi => hpc i hi) r hrge
        · exact hzero r c hrge (by omega)
      · obtain ⟨rdx, cdx⟩ := p
        have hscan : pivotScan st.S s1 n s2 = some (rdx, cdx) := by
          rw [← get_next_pivot_some_arg st.S s1 s2 H.hs20]
          exact hpiv
        obtain ⟨ha, hb, hc2, hd, _⟩ := pivotScan_some st.S s1 n s2 (rdx, cdx) hscan
        have hs1 : s1 < m := lt_of_le_of_lt ha rdx.isLt
        have heq : rrefAux m n (fuel + 1) s1 s2 st =
            rrefAux m n fuel (s1 + 1) (cdx.val + 1) (rrefStep st s1 hs1 rdx cdx) := by
          rw [rrefAux_succ, if_pos hcond, hpiv]
          exact dif_pos hs1
        rw [heq]
        exact ih (s1 + 1) (cdx.val + 1) _ _ (by omega)
          (rrefStep_loopinv M st s1 s2 hs1 rdx cdx pcol H ha hb hc2 hd)
    · have heq : rrefAux m n (fuel + 1) s1 s2 st = st := by
        rw [rrefAux_succ, if_neg hcond]
      rw [heq]
      have hs2n : n < s2 := by
        have : ¬ s2 ≤ n := fun hs2 => hcond ⟨hs2, H.hs1m⟩
        omega
      refine ⟨s1, pcol, H.hs1m, H.inv, fun i j hij hj => H.mono i j hij hj,
        fun r hr => H.clean1 r hr, fun i hi r hr => H.clean0 i hi r hr, ?_⟩
      intro r hrge c
      by_cases hpc : ∃ i, i < s1 ∧ pcol i = c
      · obtain ⟨i, hi, hieq⟩ := hpc
        rw [← hieq]
        exact H.clean0 i hi r (by omega)
      · push_neg at hpc
        exact H.skipped c (by omega) (fun i hi => hpc i hi) r hrge

/-- Structural correctness of the row-echelon reduction. -/
theorem rref_struct (M : Mat m n) :
    (reduced_row_echelon_form_mod2 M).1 * M = (reduced_row_echelon_form_mod2 M).2.1 ∧
      (reduced_row_echelon_form_mod2 M).1 * (reduced_row_echelon_form_mod2 M).2.2 = 1 ∧
      ∃ (t : ℕ) (cols : Fin t → Fin n), t ≤ m ∧ StrictMono cols ∧
        (∀ i : Fin t, ∀ r : Fin m,
          (r.val = i.val → (reduced_row_echelon_form_mod2 M).2.1 r (cols i) = 1) ∧
          (r.val ≠ i.val → (reduced_row_echelon_form_mod2 M).2.1 r (cols i) = 0)) ∧
        (∀ r : Fin m, t ≤ r.val → ∀ c : Fin n,
          (reduced_row_echelon_form_mod2 M).2.1 r c = 0) := by
  by_cases hn : 0 < n
  · obtain ⟨t, pc, ht, hinv, hmono, h1, h0, hz⟩ :=
      rrefAux_correct M (m + 1) 0 0 ⟨M, 1, 1⟩ (fun _ => ⟨0, hn⟩) (by omega)
        ⟨⟨by rw [Matrix.one_mul], by rw [Matrix.one_mul]⟩, Nat.zero_le m,
          fun _ => rfl,
          fun i j _ hj => absurd hj (Nat.not_lt_zero j),
          fun i hi => absurd hi (Nat.not_lt_zero i),
          fun r hr => absurd hr (Nat.not_lt_zero _),
          fun i hi => absurd hi (Nat.not_lt_zero i),
          fun c hc => absurd hc (Nat.not_lt_zero _)⟩
    refine ⟨hinv.1, hinv.2, t, fun i => pc i.val, ht, ?_, ?_, ?_⟩
    · intro a b hab
      rw [Fin.lt_def]
      exact hmono a.val b.val hab b.isLt
    · intro i r
      constructor
      · intro hri
        have hit := i.isLt
        have hgoal := h1 r (by omega)
        rw [hri] at hgoal
        exact hgoal
      · intro hri
        exact h0 i.val i.isLt r hri
    · exact hz
  · have hn0 : n = 0 := by omega
    subst hn0
    have hfix : rrefAux m 0 (m + 1) 0 0 (⟨M, 1, 1⟩ : RREFState m 0) = ⟨M, 1, 1⟩ := by
      rw [rrefAux_succ, if_pos ⟨Nat.le_refl 0, Nat.zero_le m⟩]
      rfl
    have heq : reduced_row_echelon_form_mod2 M = (1, M, 1) := by
      show ((rrefAux m 0 (m + 1) 0 0 ⟨M, 1, 1⟩).L,
        (rrefAux m 0 (m + 1) 0 0 ⟨M, 1, 1⟩).S,
        (rrefAux m 0 (m + 1) 0 0 ⟨M, 1, 1⟩).Linv) = (1, M, 1)
      rw [hfix]
    rw [heq]
    exact ⟨by rw [Matrix.one_mul], by rw [Matrix.one_mul], 0, Fin.elim0,
      Nat.zero_le m, fun a => a.elim0, fun i => i.elim0, fun r _ c => c.elim0⟩

/-- C2: for every rectangular 0/1 matrix `M`, `reduced_row_echelon_form_mod2 M`
returns `L, S, Linv` with `L*M = S` over GF(2), `L*Linv` the identity, and `S`
in reduced row-echelon form: there are `t ≤ m` pivots, the pivot of row `i`
sits in column `cols i` with the pivot columns strictly increasing by row,
each pivot is the sole nonzero entry of its column, and every row below the
pivot rows is zero. -/
theorem C2_rref_correct (m n : ℕ) (M : Mat m n) :
    (reduced_row_echelon_form_mod2 M).1 * M = (reduced_row_echelon_form_mod2 M).2.1 ∧
      (reduced_row_echelon_form_mod2 M).1 * (reduced_row_echelon_form_mod2 M).2.2 = 1 ∧
      ∃ (t : ℕ) (cols : Fin t → Fin n), t ≤ m ∧ StrictMono cols ∧
        (∀ i : Fin t, ∀ r : Fin m,
          (r.val = i.val → (reduced_row_echelon_form_mod2 M).2.1 r (cols i) = 1) ∧
          (r.val ≠ i.val → (reduced_row_echelon_form_mod2 M).2.1 r (cols i) = 0)) ∧
        (∀ r : Fin m, t ≤ r.val → ∀ c : Fin n,
          (reduced_row_echelon_form_mod2 M).2.1 r c = 0) :=
  rref_struct M

/-! ## The pivot-search truthiness slip (claim C6) -/

/-- C6 (code bug): the source replaces an explicitly passed `s2 = 0` by `s1`
(`if not s2:` is also true for `0`), so with `M = [[1,0],[1,0]]`, `s1 = 1`,
`s2 = 0` the function scans only `M[1:, 1:]` and reports no pivot, although
the claimed scan of `M[1:, 0:]` holds a 1 at `(1, 0)`. -/
theorem C6_pivot_zero_column_bug :
    get_next_pivot (Matrix.of !![1, 0; 1, 0] : Mat 2 2) 1 (some 0) = none ∧
      (Matrix.of !![1, 0; 1, 0] : Mat 2 2) 1 0 = 1 ∧
      get_next_pivot (Matrix.of !![1, 0; 1, 0] : Mat 2 2) 1 none = none := by
  refine ⟨?_, ?_, ?_⟩ <;> decide

/-! ## Missing faces abort the boundary-matrix construction (claim C7) -/

theorem bkFold_error (km1 : List (List ℕ)) (kb : List (List ℕ)) :
    ∀ (l : List (List ℕ × ℕ)) (M0 : Mat km1.length kb.length),
      (∃ p ∈ l, p.1.eraseIdx p.2 ∉ km1) →
      ∃ f, (l.foldlM
        (fun M p =>
          let face := p.1.eraseIdx p.2
          if face ∈ km1 then
            Except.ok (setOne M (km1.indexOf face) (kb.indexOf p.1))
          else Except.error face) M0 :
        Except (List ℕ) (Mat km1.length kb.length)) = Except.error f := by
  intro l
  induction l with
  | nil => intro M0 h; obtain ⟨p, hp, _⟩ := h; exact absurd hp (List.not_mem_nil p)
  | cons q tl ih =>
    intro M0 h
    rw [List.foldlM_cons]
    by_cases hq : q.1.eraseIdx q.2 ∈ km1
    · rw [if_pos hq]
      have htl : ∃ p ∈ tl, p.1.eraseIdx p.2 ∉ km1 := by
        obtain ⟨p, hp, hnp⟩ := h
        rcases List.mem_cons.mp hp with he | he
        · exact absurd hq (he ▸ hnp)
        · exact ⟨p, he, hnp⟩
      obtain ⟨f, hf⟩ := ih _ htl
      exact ⟨f, hf⟩
    · rw [if_neg hq]
      exact ⟨q.1.eraseIdx q.2, rfl⟩

/-- C7: `bkMatrix` fails (carrying the missing face, as the `ValueError`
raised by `list.index` does) whenever some single-vertex-deletion face of a
cell of the k-basis is absent from the (k-1)-basis; no matrix is returned. -/
theorem C7_missing_face (km1basis kbasis : List (List ℕ))
    (h : ∃ cell ∈ kbasis, ∃ idx, idx < cell.length ∧ cell.eraseIdx idx ∉ km1basis) :
    (∃ f, bkMatrix km1basis kbasis = Except.error f) ∧
      ∀ B, bkMatrix km1basis kbasis ≠ Except.ok B := by
  obtain ⟨cell, hcell, idx, hidx, hnot⟩ := h
  have hpair : (cell, idx) ∈ bkPairs kbasis := by
    unfold bkPairs
    rw [List.mem_flatMap]
    exact ⟨cell, hcell, List.mem_map.mpr ⟨idx, List.mem_range.mpr hidx, rfl⟩⟩
  obtain ⟨f, hf⟩ := bkFold_error km1basis kbasis (bkPairs kbasis) 0
    ⟨(cell, idx), hpair, hnot⟩
  refine ⟨⟨f, hf⟩, fun B hB => ?_⟩
  rw [show bkMatrix km1basis kbasis =
    (bkPairs kbasis).foldlM _ 0 from rfl] at hB
  rw [hf] at hB
  exact Except.noConfusion hB

theorem C7_witness :
    (∃ f, bkMatrix [] [[1, 2]] = Except.error f) ∧
      ∀ B, bkMatrix [] [[1, 2]] ≠ Except.ok B :=
  C7_missing_face [] [[1, 2]] ⟨[1, 2], by decide, 0, by decide, by decide⟩

/-! ## Coset of an all-zero image basis (claim C10) -/

/-- C10: `coset` returns `None` (never a list of representatives) whenever
`np.sum(im2) == 0`, in particular when `im2` has zero columns; consequently
the per-generator shortest search of `homology_basis` produces a list of
`None` entries. -/
theorem C10_coset_all_zero_none (b r : ℕ) (im2 : Mat b r) (h : matSum im2 = 0) :
    (∀ (bs : List F2) (shortest : Bool), coset im2 bs shortest = none) ∧
      ∀ projRows : List (List F2),
        shortestBasisOf im2 projRows = List.replicate projRows.length none := by
  have h1 : ∀ (bs : List F2) (shortest : Bool), coset im2 bs shortest = none := by
    intro bs shortest
    unfold coset
    rw [if_pos h]
  refine ⟨h1, fun projRows => ?_⟩
  unfold shortestBasisOf
  induction projRows with
  | nil => rfl
  | cons hd tl ih =>
    rw [List.map_cons, h1 hd true, ih, List.length_cons, List.replicate_succ]

theorem C10_witness :
    (∀ (bs : List F2) (shortest : Bool), coset (0 : Mat 2 2) bs shortest = none) ∧
      ∀ projRows : List (List F2),
        shortestBasisOf (0 : Mat 2 2) projRows =
          List.replicate projRows.length none :=
  C10_coset_all_zero_none 2 2 0 (by decide)

/-! ## Invalid dimension requests (claim C4) -/

/-- C4: for a hypergraph with at least one edge and any integer `k` below 1
or above the maximum simplex dimension (max edge size minus one),
`hypergraph_homology_basis` immediately produces the distinguished
descriptive result `wrong dim` and no homology basis. -/
theorem C4_invalid_dimension (h : List (List ℕ)) (k : ℤ) (shortest : Bool)
    (log : Option String) (hne : h ≠ [])
    (hk : k < 1 ∨ (maxEdgeSize h : ℤ) - 1 < k) :
    hypergraph_homology_basis h k shortest log =
      (HBasis.strResult "wrong dim", []) := by
  cases h with
  | nil => exact absurd rfl hne
  | cons e t =>
    have hcond : k > (maxEdgeSize (e :: t) : ℤ) - 1 ∨ k < 1 := by
      rcases hk with h1 | h1
      · exact Or.inr h1
      · exact Or.inl h1
    unfold hypergraph_homology_basis
    exact if_pos hcond

theorem C4_witness :
    hypergraph_homology_basis [[1, 2, 3]] 5 false none =
      (HBasis.strResult "wrong dim", []) :=
  C4_invalid_dimension [[1, 2, 3]] 5 false none (by decide) (Or.inr (by decide))

/-! ## The persistence log never changes the returned basis (claim C9) -/

/-- C9: `homology_basis` computes its returned value before the log block
and the block only writes; enabling the log therefore returns the same
basis as running with the log disabled (the write events are the only
difference). -/
theorem C9_log_side_channel (a b c : ℕ) (bdk : Mat a b) (bdk1 : Mat b c)
    (k : ℕ) (C : Option (List (List ℕ))) (shortest : Bool) (p : String) :
    (homology_basis bdk bdk1 k C shortest (some p)).1 =
      (homology_basis bdk bdk1 k C shortest none).1 := rfl

/-! ## Heap frame and freshness of the elementary operations (claim C8) -/

theorem Heap.read_eq (h : Heap) (r : ℕ) : h.read r = (h.cells[r]?).getD [] := by
  unfold Heap.read
  rw [List.getD_eq_getElem?_getD]

theorem Heap.alloc_snd (h : Heap) (v : PyMat) : (h.alloc v).2 = h.cells.length := rfl

theorem Heap.alloc_length (h : Heap) (v : PyMat) :
    (h.alloc v).1.cells.length = h.cells.length + 1 := by
  show (h.cells ++ [v]).length = h.cells.length + 1
  rw [List.length_append, List.length_singleton]

theorem Heap.alloc_read_old (h : Heap) (v : PyMat) (r : ℕ)
    (hr : r < h.cells.length) : (h.alloc v).1.read r = h.read r := by
  show (⟨h.cells ++ [v]⟩ : Heap).read r = h.read r
  rw [Heap.read_eq, Heap.read_eq]
  show ((h.cells ++ [v])[r]?).getD [] = _
  rw [List.getElem?_append_left hr]

theorem Heap.alloc_read_new (h : Heap) (v : PyMat) :
    (h.alloc v).1.read (h.alloc v).2 = v := by
  show (⟨h.cells ++ [v]⟩ : Heap).read h.cells.length = v
  rw [Heap.read_eq]
  show ((h.cells ++ [v])[h.cells.length]?).getD [] = v
  rw [List.getElem?_concat_length]
  rfl

theorem Heap.write_read_ne (h : Heap) (w : ℕ) (v : PyMat) (r : ℕ) (hne : w ≠ r) :
    (h.write w v).read r = h.read r := by
  show (⟨h.cells.set w v⟩ : Heap).read r = h.read r
  rw [Heap.read_eq, Heap.read_eq]
  show ((h.cells.set w v)[r]?).getD [] = _
  rw [List.getElem?_set_ne hne]

theorem Heap.write_length (h : Heap) (w : ℕ) (v : PyMat) :
    (h.write w v).cells.length = h.cells.length := by
  show (h.cells.set w v).length = h.cells.length
  rw [List.length_set]

theorem rswapH_snd (i j sRef : ℕ) (h : Heap) :
    (rswapH i j sRef h).2 = h.cells.length := rfl

theorem rswapH_len (i j sRef : ℕ) (h : Heap) :
    (rswapH i j sRef h).1.cells.length = h.cells.length + 1 := by
  simp only [rswapH]
  rw [Heap.write_length, Heap.write_length, Heap.alloc_length]

theorem rswapH_frame (i j sRef : ℕ) (h : Heap) (r : ℕ)
    (hr : r < h.cells.length) : (rswapH i j sRef h).1.read r = h.read r := by
  have hne : (h.alloc (h.read sRef)).2 ≠ r := by
    rw [Heap.alloc_snd]
    omega
  simp only [rswapH]
  rw [Heap.write_read_ne _ _ _ _ hne, Heap.write_read_ne _ _ _ _ hne,
    Heap.alloc_read_old _ _ _ hr]

theorem add_to_rowH_snd (mRef i j : ℕ) (h : Heap) :
    (add_to_rowH mRef i j h).2 = h.cells.length := rfl

theorem add_to_rowH_len (mRef i j : ℕ) (h : Heap) :
    (add_to_rowH mRef i j h).1.cells.length = h.cells.length + 1 := by
  simp only [add_to_rowH]
  rw [Heap.write_length, Heap.alloc_length]

theorem add_to_rowH_frame (mRef i j : ℕ) (h : Heap) (r : ℕ)
    (hr : r < h.cells.length) : (add_to_rowH mRef i j h).1.read r = h.read r := by
  have hne : (h.alloc (h.read mRef)).2 ≠ r := by
    rw [Heap.alloc_snd]
    omega
  simp only [add_to_rowH]
  rw [Heap.write_read_ne _ _ _ _ hne, Heap.alloc_read_old _ _ _ hr]

theorem cswapH_snd (i j sRef : ℕ) (h : Heap) :
    (cswapH i j sRef h).2 = h.cells.length + 2 := by
  simp only [cswapH]
  rw [Heap.alloc_snd, rswapH_len, Heap.alloc_length]

theorem cswapH_len (i j sRef : ℕ) (h : Heap) :
    (cswapH i j sRef h).1.cells.length = h.cells.length + 3 := by
  simp only [cswapH]
  rw [Heap.alloc_length, rswapH_len, Heap.alloc_length]

theorem cswapH_frame (i j sRef : ℕ) (h : Heap) (r : ℕ)
    (hr : r < h.cells.length) : (cswapH i j sRef h).1.read r = h.read r := by
  have hr1 : r < (h.alloc (transposeVal (h.read sRef))).1.cells.length := by
    rw [Heap.alloc_length]
    omega
  have hr2 : r < (rswapH i j (h.alloc (transposeVal (h.read sRef))).2
      (h.alloc (transposeVal (h.read sRef))).1).1.cells.length := by
    rw [rswapH_len, Heap.alloc_length]
    omega
  simp only [cswapH]
  rw [Heap.alloc_read_old _ _ _ hr2, rswapH_frame _ _ _ _ _ hr1,
    Heap.alloc_read_old _ _ _ hr]

theorem add_to_columnH_snd (mRef i j : ℕ) (h : Heap) :
    (add_to_columnH mRef i j h).2 = h.cells.length + 2 := by
  simp only [add_to_columnH]
  rw [Heap.alloc_snd, add_to_rowH_len, Heap.alloc_length]

theorem add_to_columnH_frame (mRef i j : ℕ) (h : Heap) (r : ℕ)
    (hr : r < h.cells.length) :
    (add_to_columnH mRef i j h).1.read r = h.read r := by
  have hr1 : r < (h.alloc (transposeVal (h.read mRef))).1.cells.length := by
    rw [Heap.alloc_length]
    omega
  have hr2 : r < (add_to_rowH (h.alloc (transposeVal (h.read mRef))).2 i j
      (h.alloc (transposeVal (h.read mRef))).1).1.cells.length := by
    rw [add_to_rowH_len, Heap.alloc_length]
    omega
  simp only [add_to_columnH]
  rw [Heap.alloc_read_old _ _ _ hr2, add_to_rowH_frame _ _ _ _ _ hr1,
    Heap.alloc_read_old _ _ _ hr]

theorem swap_rowsH_aux (i j : ℕ) :
    ∀ (args : List ℕ) (h0 : Heap) (acc : List ℕ),
      h0.cells.length ≤
        (args.foldl (fun acc2 r => ((rswapH i j r acc2.1).1,
          acc2.2 ++ [(rswapH i j r acc2.1).2])) (h0, acc)).1.cells.length ∧
      (∀ r, r < h0.cells.length →
        (args.foldl (fun acc2 r => ((rswapH i j r acc2.1).1,
          acc2.2 ++ [(rswapH i j r acc2.1).2])) (h0, acc)).1.read r = h0.read r) ∧
      (∀ out ∈ (args.foldl (fun acc2 r => ((rswapH i j r acc2.1).1,
          acc2.2 ++ [(rswapH i j r acc2.1).2])) (h0, acc)).2,
        out ∈ acc ∨ h0.cells.length ≤ out) := by
  intro args
  induction args with
  | nil =>
    intro h0 acc
    exact ⟨le_refl _, fun r _ => rfl, fun out hout => Or.inl hout⟩
  | cons a tl ih =>
    intro h0 acc
    rw [List.foldl_cons]
    obtain ⟨ih1, ih2, ih3⟩ := ih (rswapH i j a h0).1 (acc ++ [(rswapH i j a h0).2])
    refine ⟨?_, ?_, ?_⟩
    · calc h0.cells.length ≤ h0.cells.length + 1 := Nat.le_succ _
        _ = (rswapH i j a h0).1.cells.length := (rswapH_len i j a h0).symm
        _ ≤ _ := ih1
    · intro r hr
      rw [ih2 r (by rw [rswapH_len]; omega), rswapH_frame i j a h0 r hr]
    · intro out hout
      rcases ih3 out hout with hacc | hge
      · rcases List.mem_append.mp hacc with h1 | h1
        · exact Or.inl h1
        · rcases List.mem_singleton.mp h1 with rfl
          rw [rswapH_snd]
          exact Or.inr (le_refl _)
      · rw [rswapH_len] at hge
        exact Or.inr (by omega)

theorem swap_columnsH_aux (i j : ℕ) :
    ∀ (args : List ℕ) (h0 : Heap) (acc : List ℕ),
      h0.cells.length ≤
        (args.foldl (fun acc2 r => ((cswapH i j r acc2.1).1,
          acc2.2 ++ [(cswapH i j r acc2.1).2])) (h0, acc)).1.cells.length ∧
      (∀ r, r < h0.cells.length →
        (args.foldl (fun acc2 r => ((cswapH i j r acc2.1).1,
          acc2.2 ++ [(cswapH i j r acc2.1).2])) (h0, acc)).1.read r = h0.read r) ∧
      (∀ out ∈ (args.foldl (fun acc2 r => ((cswapH i j r acc2.1).1,
          acc2.2 ++ [(cswapH i j r acc2.1).2])) (h0, acc)).2,
        out ∈ acc ∨ h0.cells.length ≤ out) := by
  intro args
  induction args with
  | nil =>
    intro h0 acc
    exact ⟨le_refl _, fun r _ => rfl, fun out hout => Or.inl hout⟩
  | cons a tl ih =>
    intro h0 acc
    rw [List.foldl_cons]
    obtain ⟨ih1, ih2, ih3⟩ := ih (cswapH i j a h0).1 (acc ++ [(cswapH i j a h0).2])
    refine ⟨?_, ?_, ?_⟩
    · calc h0.cells.length ≤ h0.cells.length + 3 := by omega
        _ = (cswapH i j a h0).1.cells.length := (cswapH_len i j a h0).symm
        _ ≤ _ := ih1
    · intro r hr
      rw [ih2 r (by rw [cswapH_len]; omega), cswapH_frame i j a h0 r hr]
    · intro out hout
      rcases ih3 out hout with hacc | hge
      · rcases List.mem_append.mp hacc with h1 | h1
        · exact Or.inl h1
        · rcases List.mem_singleton.mp h1 with rfl
          rw [cswapH_snd]
          exact Or.inr (by omega)
      · rw [cswapH_len] at hge
        exact Or.inr (by omega)

/-- C8: in the heap model of the source's elementary operations, `_rswap`,
`add_to_row`, `_cswap`, `add_to_column`, `swap_rows` and `swap_columns` all
leave every existing heap cell (in particular every input matrix) exactly as
it was, and every returned reference is fresh — never aliased to an input
reference. -/
theorem C8_elementary_ops_pure (h : Heap) (i j sRef : ℕ)
    (hs : sRef < h.cells.length) :
    ((rswapH i j sRef h).1.read sRef = h.read sRef ∧
        (rswapH i j sRef h).2 ≠ sRef) ∧
      ((add_to_rowH sRef i j h).1.read sRef = h.read sRef ∧
        (add_to_rowH sRef i j h).2 ≠ sRef) ∧
      ((cswapH i j sRef h).1.read sRef = h.read sRef ∧
        (cswapH i j sRef h).2 ≠ sRef) ∧
      ((add_to_columnH sRef i j h).1.read sRef = h.read sRef ∧
        (add_to_columnH sRef i j h).2 ≠ sRef) ∧
      (∀ args : List ℕ, (∀ a ∈ args, a < h.cells.length) →
        (∀ a ∈ args, (swap_rowsH i j args h).1.read a = h.read a) ∧
        (∀ out ∈ (swap_rowsH i j args h).2, ∀ a ∈ args, out ≠ a)) ∧
      (∀ args : List ℕ, (∀ a ∈ args, a < h.cells.length) →
        (∀ a ∈ args, (swap_columnsH i j args h).1.read a = h.read a) ∧
        (∀ out ∈ (swap_columnsH i j args h).2, ∀ a ∈ args, out ≠ a)) := by
  refine ⟨⟨rswapH_frame i j sRef h sRef hs, ?_⟩,
    ⟨add_to_rowH_frame sRef i j h sRef hs, ?_⟩,
    ⟨cswapH_frame i j sRef h sRef hs, ?_⟩,
    ⟨add_to_columnH_frame sRef i j h sRef hs, ?_⟩, ?_, ?_⟩
  · rw [rswapH_snd]
    omega
  · rw [add_to_rowH_snd]
    omega
  · rw [cswapH_snd]
    omega
  · rw [add_to_columnH_snd]
    omega
  · intro args hargs
    obtain ⟨_, h2, h3⟩ := swap_rowsH_aux i j args h []
    refine ⟨fun a ha => h2 a (hargs a ha), fun out hout a ha => ?_⟩
    rcases h3 out hout with hc | hge
    · exact absurd hc (List.not_mem_nil out)
    · have := hargs a ha
      omega
  · intro args hargs
    obtain ⟨_, h2, h3⟩ := swap_columnsH_aux i j args h []
    refine ⟨fun a ha => h2 a (hargs a ha), fun out hout a ha => ?_⟩
    rcases h3 out hout with hc | hge
    · exact absurd hc (List.not_mem_nil out)
    · have := hargs a ha
      omega

theorem C8_witness :
    (((rswapH 0 1 0 ⟨[[[1, 0], [0, 1]]]⟩).1.read 0 =
        Heap.read ⟨[[[1, 0], [0, 1]]]⟩ 0 ∧
        (rswapH 0 1 0 ⟨[[[1, 0], [0, 1]]]⟩).2 ≠ 0) ∧
      ((add_to_rowH 0 0 1 ⟨[[[1, 0], [0, 1]]]⟩).1.read 0 =
          Heap.read ⟨[[[1, 0], [0, 1]]]⟩ 0 ∧
        (add_to_rowH 0 0 1 ⟨[[[1, 0], [0, 1]]]⟩).2 ≠ 0) ∧
      ((cswapH 0 1 0 ⟨[[[1, 0], [0, 1]]]⟩).1.read 0 =
          Heap.read ⟨[[[1, 0], [0, 1]]]⟩ 0 ∧
        (cswapH 0 1 0 ⟨[[[1, 0], [0, 1]]]⟩).2 ≠ 0) ∧
      ((add_to_columnH 0 0 1 ⟨[[[1, 0], [0, 1]]]⟩).1.read 0 =
          Heap.read ⟨[[[1, 0], [0, 1]]]⟩ 0 ∧
        (add_to_columnH 0 0 1 ⟨[[[1, 0], [0, 1]]]⟩).2 ≠ 0) ∧
      (∀ args : List ℕ, (∀ a ∈ args, a < (Heap.cells ⟨[[[1, 0], [0, 1]]]⟩).length) →
        (∀ a ∈ args, (swap_rowsH 0 1 args ⟨[[[1, 0], [0, 1]]]⟩).1.read a =
          Heap.read ⟨[[[1, 0], [0, 1]]]⟩ a) ∧
        (∀ out ∈ (swap_rowsH 0 1 args ⟨[[[1, 0], [0, 1]]]⟩).2,
          ∀ a ∈ args, out ≠ a)) ∧
      (∀ args : List ℕ, (∀ a ∈ args, a < (Heap.cells ⟨[[[1, 0], [0, 1]]]⟩).length) →
        (∀ a ∈ args, (swap_columnsH 0 1 args ⟨[[[1, 0], [0, 1]]]⟩).1.read a =
          Heap.read ⟨[[[1, 0], [0, 1]]]⟩ a) ∧
        (∀ out ∈ (swap_columnsH 0 1 args ⟨[[[1, 0], [0, 1]]]⟩).2,
          ∀ a ∈ args, out ≠ a))) :=
  C8_elementary_ops_pure ⟨[[[1, 0], [0, 1]]]⟩ 0 1 0 (by decide)

/-! ## Chain bases: characterisation and closure under taking faces -/

theorem edgeSortedVerts_sorted (e : List ℕ) :
    (edgeSortedVerts e).Sorted (· < ·) := by
  have hs : (edgeSortedVerts e).Sorted (· ≤ ·) :=
    List.sorted_insertionSort (· ≤ ·) e.dedup
  have hn : (edgeSortedVerts e).Nodup :=
    (List.perm_insertionSort (· ≤ ·) e.dedup).nodup_iff.mpr (List.nodup_dedup e)
  exact hs.lt_of_le hn

theorem mem_edgeSortedVerts (e : List ℕ) (v : ℕ) :
    v ∈ edgeSortedVerts e ↔ v ∈ e := by
  unfold edgeSortedVerts
  rw [(List.perm_insertionSort (· ≤ ·) e.dedup).mem_iff, List.mem_dedup]

/-- Sorted duplicate-free lists ordered by `<` embed by sublists exactly when
they embed by membership. -/
theorem sorted_lt_sublist_of_subset :
    ∀ (y x : List ℕ), x.Sorted (· < ·) → y.Sorted (· < ·) →
      (∀ v ∈ x, v ∈ y) → x.Sublist y := by
  intro y
  induction y with
  | nil =>
    intro x _ _ hsub
    rw [List.eq_nil_iff_forall_not_mem.mpr (fun v hv => List.not_mem_nil v (hsub v hv))]
  | cons b ys ih =>
    intro x hx hy hsub
    cases x with
    | nil => exact List.nil_sublist _
    | cons a xs =>
      have hya : ∀ v ∈ ys, b < v := fun v hv => (List.sorted_cons.mp hy).1 v hv
      by_cases hab : a = b
      · subst hab
        refine List.Sublist.cons₂ a (ih xs (List.sorted_cons.mp hx).2
          (List.sorted_cons.mp hy).2 ?_)
        intro v hv
        have hv2 : v ∈ a :: ys := hsub v (List.mem_cons_of_mem a hv)
        rcases List.mem_cons.mp hv2 with he | he
        · exact absurd he.symm (ne_of_lt ((List.sorted_cons.mp hx).1 v hv))
        · exact he
      · have hbx : ∀ v ∈ a :: xs, v ∈ ys := by
          intro v hv
          have hv2 := hsub v hv
          rcases List.mem_cons.mp hv2 with he | he
          · exfalso
            have hav : a = v ∨ a < v := by
              rcases List.mem_cons.mp hv with h1 | h1
              · exact Or.inl h1.symm
              · exact Or.inr ((List.sorted_cons.mp hx).1 v h1)
            have haY : a ∈ b :: ys := hsub a (List.mem_cons_self a xs)
            rcases List.mem_cons.mp haY with h2 | h2
            · exact hab h2
            · have hba : b < a := hya a h2
              rcases hav with h3 | h3
              · rw [he] at h3; omega
              · rw [he] at h3; omega
          · exact he
        exact List.Sublist.cons b (ih (a :: xs) hx (List.sorted_cons.mp hy).2 hbx)

theorem mem_kchainbasis (h : List (List ℕ)) (k : ℕ) (x : List ℕ) :
    x ∈ kchainbasis h k ↔
      x.Sorted (· < ·) ∧ x.length = k + 1 ∧ ∃ e ∈ h, ∀ v ∈ x, v ∈ e := by
  unfold kchainbasis
  rw [(List.perm_insertionSort (fun a b => lexLe a b) (kchains h k).dedup).mem_iff,
    List.mem_dedup]
  unfold kchains
  rw [List.mem_flatMap]
  constructor
  · rintro ⟨e, he, hx⟩
    by_cases h1 : (edgeSortedVerts e).length = k + 1
    · rw [if_pos h1] at hx
      rcases List.mem_singleton.mp hx with rfl
      exact ⟨edgeSortedVerts_sorted e, h1,
        e, he, fun v hv => (mem_edgeSortedVerts e v).mp hv⟩
    · rw [if_neg h1] at hx
      by_cases h2 : k + 1 < (edgeSortedVerts e).length
      · rw [if_pos h2] at hx
        obtain ⟨hsl, hlen⟩ := List.mem_sublistsLen.mp hx
        exact ⟨(edgeSortedVerts_sorted e).sublist hsl, hlen,
          e, he, fun v hv => (mem_edgeSortedVerts e v).mp (hsl.subset hv)⟩
      · rw [if_neg h2] at hx
        exact absurd hx (List.not_mem_nil x)
  · rintro ⟨hsort, hlen, e, he, hsub⟩
    refine ⟨e, he, ?_⟩
    have hsub2 : ∀ v ∈ x, v ∈ edgeSortedVerts e :=
      fun v hv => (mem_edgeSortedVerts e v).mpr (hsub v hv)
    have hsl : x.Sublist (edgeSortedVerts e) :=
      sorted_lt_sublist_of_subset (edgeSortedVerts e) x hsort
        (edgeSortedVerts_sorted e) hsub2
    have hle : k + 1 ≤ (edgeSortedVerts e).length := hlen ▸ hsl.length_le
    by_cases h1 : (edgeSortedVerts e).length = k + 1
    · rw [if_pos h1]
      rw [List.mem_singleton]
      exact hsl.eq_of_length (by omega)
    · rw [if_neg h1, if_pos (by omega)]
      exact List.mem_sublistsLen.mpr ⟨hsl, hlen⟩

theorem kchainbasis_nodup (h : List (List ℕ)) (k : ℕ) : (kchainbasis h k).Nodup := by
  unfold kchainbasis
  exact (List.perm_insertionSort (fun a b => lexLe a b) (kchains h k).dedup).nodup_iff.mpr
    (List.nodup_dedup _)

theorem kchainbasis_sorted_mem (h : List (List ℕ)) (k : ℕ) (x : List ℕ)
    (hx : x ∈ kchainbasis h k) : x.Sorted (· < ·) ∧ x.length = k + 1 :=
  ⟨((mem_kchainbasis h k x).mp hx).1, ((mem_kchainbasis h k x).mp hx).2.1⟩

/-- Every face of a chain of the `(k+1)`-basis lies in the `k`-basis. -/
theorem kchainbasis_closed (h : List (List ℕ)) (k : ℕ) (x : List ℕ)
    (hx : x ∈ kchainbasis h (k + 1)) (idx : ℕ) (hidx : idx < x.length) :
    x.eraseIdx idx ∈ kchainbasis h k := by
  obtain ⟨hsort, hlen, e, he, hsub⟩ := (mem_kchainbasis h (k + 1) x).mp hx
  refine (mem_kchainbasis h k _).mpr
    ⟨hsort.sublist (List.eraseIdx_sublist x idx), ?_,
      e, he, fun v hv => hsub v ((List.eraseIdx_sublist x idx).subset hv)⟩
  rw [List.length_eraseIdx]
  rw [if_pos hidx, hlen]
  omega

/-! ## Entry-level characterisation of the boundary matrix -/

theorem mem_bkPairs (kb : List (List ℕ)) (p : List ℕ × ℕ) :
    p ∈ bkPairs kb ↔ p.1 ∈ kb ∧ p.2 < p.1.length := by
  unfold bkPairs
  rw [List.mem_flatMap]
  constructor
  · rintro ⟨cell, hc, hp⟩
    obtain ⟨idx, hidx, hpe⟩ := List.mem_map.mp hp
    rw [← hpe]
    exact ⟨hc, List.mem_range.mp hidx⟩
  · rintro ⟨h1, h2⟩
    exact ⟨p.1, h1, List.mem_map.mpr ⟨p.2, List.mem_range.mpr h2, rfl⟩⟩

/-- When every face that comes up is present in the `(k-1)`-basis, the
`bkMatrix` fold never aborts and reduces to a plain `foldl` of `setOne`. -/
theorem bkFoldList_ok (km1 kb : List (List ℕ)) (l : List (List ℕ × ℕ))
    (hl : ∀ p ∈ l, p.1.eraseIdx p.2 ∈ km1) (M : Mat km1.length kb.length) :
    l.foldlM
      (fun M p =>
        let face := p.1.eraseIdx p.2
        if face ∈ km1 then
          Except.ok (setOne M (km1.indexOf face) (kb.indexOf p.1))
        else Except.error face)
      M
    = Except.ok (l.foldl
        (fun M p => setOne M (km1.indexOf (p.1.eraseIdx p.2)) (kb.indexOf p.1)) M) := by
  induction l generalizing M with
  | nil => rfl
  | cons q t ih =>
    have hq : q.1.eraseIdx q.2 ∈ km1 := hl q (List.mem_cons_self q t)
    rw [List.foldlM_cons, List.foldl_cons]
    have hstep : (if q.1.eraseIdx q.2 ∈ km1 then
          Except.ok (setOne M (km1.indexOf (q.1.eraseIdx q.2)) (kb.indexOf q.1))
        else Except.error (q.1.eraseIdx q.2))
        = (Except.ok (setOne M (km1.indexOf (q.1.eraseIdx q.2)) (kb.indexOf q.1)) :
            Except (List ℕ) (Mat km1.length kb.length)) := by
      rw [if_pos hq]
    show (if q.1.eraseIdx q.2 ∈ km1 then
          Except.ok (setOne M (km1.indexOf (q.1.eraseIdx q.2)) (kb.indexOf q.1))
        else Except.error (q.1.eraseIdx q.2)) >>= _ = _
    rw [hstep]
    show t.foldlM _ _ = _
    exact ih (fun p hp => hl p (List.mem_cons_of_mem q hp)) _

theorem foldl_setOne_apply (r c : List ℕ × ℕ → ℕ) :
    ∀ (l : List (List ℕ × ℕ)) (M : Mat a b) (i : Fin a) (j : Fin b),
      (l.foldl (fun M p => setOne M (r p) (c p)) M) i j
        = if ∃ p ∈ l, r p = i.val ∧ c p = j.val then 1 else M i j := by
  intro l
  induction l with
  | nil =>
    intro M i j
    rw [List.foldl_nil, if_neg]
    rintro ⟨p, hp, -⟩
    exact List.not_mem_nil p hp
  | cons q t ih =>
    intro M i j
    rw [List.foldl_cons, ih]
    by_cases h1 : ∃ p ∈ t, r p = i.val ∧ c p = j.val
    · obtain ⟨p, hp, hpc⟩ := h1
      rw [if_pos ⟨p, hp, hpc⟩, if_pos ⟨p, List.mem_cons_of_mem q hp, hpc⟩]
    · rw [if_neg h1]
      by_cases h2 : r q = i.val ∧ c q = j.val
      · rw [if_pos ⟨q, List.mem_cons_self q t, h2⟩]
        unfold setOne
        rw [if_pos ⟨h2.1.symm, h2.2.symm⟩]
      · have hno : ¬ ∃ p ∈ q :: t, r p = i.val ∧ c p = j.val := by
          rintro ⟨p, hp, hpc⟩
          rcases List.mem_cons.mp hp with he | hp2
          · rw [he] at hpc
            exact h2 hpc
          · exact h1 ⟨p, hp2, hpc⟩
        rw [if_neg hno]
        unfold setOne
        rw [if_neg (fun hc => h2 ⟨hc.1.symm, hc.2.symm⟩)]

/-- The two boolean-equality instances floating around `List ℕ` agree. -/
theorem listNat_beq_agree (x y : List ℕ) :
    (x == y) = @BEq.beq _ instBEqOfDecidableEq x y := by
  show (x == y) = decide (x = y)
  by_cases h : x = y
  · rw [decide_eq_true h]
    exact beq_iff_eq.mpr h
  · rw [decide_eq_false h]
    exact beq_eq_false_iff_ne.mpr h

theorem indexOf_agree (a : List ℕ) (l : List (List ℕ)) :
    l.indexOf a = @List.indexOf _ instBEqOfDecidableEq a l := by
  induction l with
  | nil => rfl
  | cons b t ih =>
    rw [List.indexOf_cons, @List.indexOf_cons _ b t a instBEqOfDecidableEq,
      listNat_beq_agree b a, ih]

/-- Under duplicate-free bases that are closed under faces, `bkMatrix`
succeeds and its `(i, j)` entry is one exactly when row cell `i` is a face of
column cell `j` — the incidence description of the spec. -/
theorem bkMatrix_ok_spec (km1 kb : List (List ℕ))
    (hkm1 : km1.Nodup) (hkb : kb.Nodup)
    (hcl : ∀ cell ∈ kb, ∀ idx, idx < cell.length → cell.eraseIdx idx ∈ km1) :
    ∃ B, bkMatrix km1 kb = Except.ok B ∧
      ∀ (i : Fin km1.length) (j : Fin kb.length),
        (B i j = 1 ↔ isFace (km1.get i) (kb.get j)) ∧
        (¬ isFace (km1.get i) (kb.get j) → B i j = 0) := by
  have hl : ∀ p ∈ bkPairs kb, p.1.eraseIdx p.2 ∈ km1 := by
    intro p hp
    obtain ⟨h1, h2⟩ := (mem_bkPairs kb p).mp hp
    exact hcl p.1 h1 p.2 h2
  refine ⟨_, bkFoldList_ok km1 kb (bkPairs kb) hl 0, ?_⟩
  intro i j
  rw [foldl_setOne_apply]
  have hiff : (∃ p ∈ bkPairs kb,
      km1.indexOf (p.1.eraseIdx p.2) = i.val ∧ kb.indexOf p.1 = j.val) ↔
      isFace (km1.get i) (kb.get j) := by
    constructor
    · rintro ⟨p, hp, hri, hcj⟩
      obtain ⟨hmem, hlt⟩ := (mem_bkPairs kb p).mp hp
      have hface : p.1.eraseIdx p.2 ∈ km1 := hcl p.1 hmem p.2 hlt
      have hjlt : @List.indexOf _ instBEqOfDecidableEq p.1 kb < kb.length :=
        List.indexOf_lt_length.mpr hmem
      have hj : kb.get j = p.1 := by
        have hje : j = ⟨@List.indexOf _ instBEqOfDecidableEq p.1 kb, hjlt⟩ :=
          Fin.ext (hcj.symm.trans (indexOf_agree p.1 kb))
        rw [hje]
        exact List.getElem_indexOf hjlt
      have hilt : @List.indexOf _ instBEqOfDecidableEq (p.1.eraseIdx p.2) km1 <
          km1.length := List.indexOf_lt_length.mpr hface
      have hi : km1.get i = p.1.eraseIdx p.2 := by
        have hie : i = ⟨@List.indexOf _ instBEqOfDecidableEq (p.1.eraseIdx p.2) km1,
            hilt⟩ := Fin.ext (hri.symm.trans (indexOf_agree _ km1))
        rw [hie]
        exact List.getElem_indexOf hilt
      rw [hi, hj]
      exact ⟨p.2, hlt, rfl⟩
    · rintro ⟨idx, hidx, heq⟩
      refine ⟨(kb.get j, idx), (mem_bkPairs kb _).mpr
        ⟨List.get_mem kb j.val j.isLt, hidx⟩, ?_, ?_⟩
      · show km1.indexOf ((kb.get j).eraseIdx idx) = i.val
        rw [heq, indexOf_agree]
        exact List.indexOf_getElem hkm1 i.val i.isLt
      · show kb.indexOf (kb.get j) = j.val
        rw [indexOf_agree]
        exact List.indexOf_getElem hkb j.val j.isLt
  constructor
  · by_cases hex : ∃ p ∈ bkPairs kb,
        km1.indexOf (p.1.eraseIdx p.2) = i.val ∧ kb.indexOf p.1 = j.val
    · rw [if_pos hex]
      simp only [true_iff]
      exact hiff.mp hex
    · rw [if_neg hex]
      constructor
      · intro hz
        exfalso
        have hz0 : (0 : F2) = 1 := hz
        exact absurd hz0 (by decide)
      · intro hf
        exact absurd (hiff.mpr hf) hex
  · intro hf
    rw [if_neg (fun hex => hf (hiff.mp hex))]
    rfl

/-! ## The face relation via subsets -/

theorem sublist_exists_eraseIdx {x y : List ℕ} (hs : x.Sublist y)
    (hlen : y.length = x.length + 1) :
    ∃ idx, idx < y.length ∧ y.eraseIdx idx = x := by
  induction hs with
  | slnil => omega
  | cons b hs2 ih =>
    rename_i l1 l2
    have hx : l1 = l2 := hs2.eq_of_length (by
      have := hs2.length_le
      simp only [List.length_cons] at hlen
      omega)
    exact ⟨0, by simp only [List.length_cons]; omega, hx.symm⟩
  | cons₂ b hs2 ih =>
    rename_i l1 l2
    have hlen2 : l2.length = l1.length + 1 := by
      simp only [List.length_cons] at hlen
      omega
    obtain ⟨idx, h1, h2⟩ := ih hlen2
    exact ⟨idx + 1, by simp only [List.length_cons]; omega,
      by rw [List.eraseIdx_cons_succ, h2]⟩

theorem isFace_subset {σ τ : List ℕ} (hf : isFace σ τ) : ∀ v ∈ σ, v ∈ τ := by
  obtain ⟨idx, hidx, heq⟩ := hf
  intro v hv
  rw [← heq] at hv
  exact (List.eraseIdx_sublist τ idx).subset hv

/-- For sorted duplicate-free cells whose lengths differ by one, the face
relation used by `bkMatrix` is exactly vertex-set inclusion. -/
theorem isFace_iff_subset {σ τ : List ℕ} (hσ : σ.Sorted (· < ·))
    (hτ : τ.Sorted (· < ·)) (hlen : τ.length = σ.length + 1) :
    isFace σ τ ↔ ∀ v ∈ σ, v ∈ τ := by
  constructor
  · exact isFace_subset
  · intro hsub
    exact sublist_exists_eraseIdx
      (sorted_lt_sublist_of_subset τ σ hσ hτ hsub) hlen

theorem logical_matmul_eq_mul (A : Mat a b) (B : Mat b c) :
    logical_matmul A B = A * B := by
  funext i j
  show (if ∀ k, A i k = 0 then 0 else logical_dot (A i) (fun k => B k j)) = _
  by_cases h : ∀ k, A i k = 0
  · rw [if_pos h, Matrix.mul_apply]
    exact (Finset.sum_eq_zero (fun k _ => by rw [h k, zero_mul])).symm
  · rw [if_neg h, Matrix.mul_apply]
    rfl

theorem min_of_singleton {s : Finset ℕ} (hs : s.Nonempty) {u : ℕ} (he : s = {u}) :
    s.min' hs = u := by
  subst he
  exact Finset.min'_singleton u

/-- Counting middle cells: when the basis is duplicate-free, its cells all
have length `|σ| + 1`, and it contains every sorted insertion of an extra
vertex of `τ` into `σ`, the cells sandwiched between `σ` and `τ` (with
`|τ| = |σ| + 2` and `σ ⊆ τ`) correspond exactly to the extra vertices of
`τ`. -/
theorem face_pair_count (kb : List (List ℕ)) (σ τ : List ℕ)
    (hkbN : kb.Nodup)
    (hσs : σ.Sorted (· < ·)) (hτs : τ.Sorted (· < ·))
    (hτlen : τ.length = σ.length + 2)
    (hxall : ∀ c : Fin kb.length,
      (kb.get c).Sorted (· < ·) ∧ (kb.get c).length = σ.length + 1)
    (hcomplete : ∀ u ∈ τ.toFinset \ σ.toFinset,
      Finset.sort (· ≤ ·) (insert u σ.toFinset) ∈ kb)
    (hsub : ∀ v ∈ σ, v ∈ τ) :
    (Finset.univ.filter
        (fun c : Fin kb.length => isFace σ (kb.get c) ∧ isFace (kb.get c) τ)).card
      = (τ.toFinset \ σ.toFinset).card := by
  have hσN : σ.Nodup := hσs.nodup
  have hdiffcard : ∀ c : Fin kb.length,
      isFace σ (kb.get c) ∧ isFace (kb.get c) τ →
      ((kb.get c).toFinset \ σ.toFinset).card = 1 := by
    intro c hc
    have hx := hxall c
    have hsx : σ.toFinset ⊆ (kb.get c).toFinset := fun v hv =>
      List.mem_toFinset.mpr (isFace_subset hc.1 v (List.mem_toFinset.mp hv))
    rw [Finset.card_sdiff hsx, List.toFinset_card_of_nodup hx.1.nodup,
      List.toFinset_card_of_nodup hσN, hx.2]
    omega
  have hne : ∀ c ∈ Finset.univ.filter
      (fun c : Fin kb.length => isFace σ (kb.get c) ∧ isFace (kb.get c) τ),
      ((kb.get c).toFinset \ σ.toFinset).Nonempty := by
    intro c hc
    have h1 := hdiffcard c (Finset.mem_filter.mp hc).2
    exact Finset.card_pos.mp (by omega)
  refine Finset.card_bij'
    (fun c hc => ((kb.get c).toFinset \ σ.toFinset).min' (hne c hc))
    (fun u hu => ⟨@List.indexOf _ instBEqOfDecidableEq
        (Finset.sort (· ≤ ·) (insert u σ.toFinset)) kb,
      List.indexOf_lt_length.mpr (hcomplete u hu)⟩)
    ?_ ?_ ?_ ?_
  · intro c hc
    have hP := (Finset.mem_filter.mp hc).2
    have hm := Finset.min'_mem _ (hne c hc)
    obtain ⟨hmx, hmσ⟩ := Finset.mem_sdiff.mp hm
    exact Finset.mem_sdiff.mpr
      ⟨List.mem_toFinset.mpr (isFace_subset hP.2 _ (List.mem_toFinset.mp hmx)), hmσ⟩
  · intro u hu
    obtain ⟨huτ, huσ⟩ := Finset.mem_sdiff.mp hu
    have hylt : @List.indexOf _ instBEqOfDecidableEq
        (Finset.sort (· ≤ ·) (insert u σ.toFinset)) kb < kb.length :=
      List.indexOf_lt_length.mpr (hcomplete u hu)
    have hy : kb.get ⟨@List.indexOf _ instBEqOfDecidableEq
        (Finset.sort (· ≤ ·) (insert u σ.toFinset)) kb, hylt⟩
        = Finset.sort (· ≤ ·) (insert u σ.toFinset) :=
      List.getElem_indexOf hylt
    have hysort : (Finset.sort (· ≤ ·) (insert u σ.toFinset)).Sorted (· < ·) :=
      (Finset.sort_sorted (· ≤ ·) _).lt_of_le (Finset.sort_nodup (· ≤ ·) _)
    have hylen : (Finset.sort (· ≤ ·) (insert u σ.toFinset)).length
        = σ.length + 1 := by
      rw [Finset.length_sort, Finset.card_insert_of_not_mem huσ,
        List.toFinset_card_of_nodup hσN]
    show (⟨@List.indexOf _ instBEqOfDecidableEq
        (Finset.sort (· ≤ ·) (insert u σ.toFinset)) kb, hylt⟩ : Fin kb.length)
      ∈ Finset.univ.filter
        (fun c : Fin kb.length => isFace σ (kb.get c) ∧ isFace (kb.get c) τ)
    refine Finset.mem_filter.mpr ⟨Finset.mem_univ _, ?_, ?_⟩
    · rw [hy]
      refine (isFace_iff_subset hσs hysort hylen).mpr ?_
      intro v hv
      exact (Finset.mem_sort (· ≤ ·)).mpr
        (Finset.mem_insert_of_mem (List.mem_toFinset.mpr hv))
    · rw [hy]
      refine (isFace_iff_subset hysort hτs (by rw [hylen]; omega)).mpr ?_
      intro v hv
      have hv2 := (Finset.mem_sort (· ≤ ·)).mp hv
      rcases Finset.mem_insert.mp hv2 with he | hvσ
      · rw [he]
        exact List.mem_toFinset.mp huτ
      · exact hsub v (List.mem_toFinset.mp hvσ)
  · intro c hc
    have hP := (Finset.mem_filter.mp hc).2
    have hx := hxall c
    have hxN : (kb.get c).Nodup := hx.1.nodup
    have hm := Finset.min'_mem _ (hne c hc)
    obtain ⟨hmx, hmσ⟩ := Finset.mem_sdiff.mp hm
    have hsx : σ.toFinset ⊆ (kb.get c).toFinset := fun v hv =>
      List.mem_toFinset.mpr (isFace_subset hP.1 v (List.mem_toFinset.mp hv))
    have hins_sub : insert (((kb.get c).toFinset \ σ.toFinset).min' (hne c hc))
        σ.toFinset ⊆ (kb.get c).toFinset :=
      Finset.insert_subset hmx hsx
    have hcards : (kb.get c).toFinset.card ≤
        (insert (((kb.get c).toFinset \ σ.toFinset).min' (hne c hc))
          σ.toFinset).card := by
      rw [Finset.card_insert_of_not_mem hmσ, List.toFinset_card_of_nodup hxN,
        List.toFinset_card_of_nodup hσN, hx.2]
    have hfeq : insert (((kb.get c).toFinset \ σ.toFinset).min' (hne c hc))
        σ.toFinset = (kb.get c).toFinset :=
      Finset.eq_of_subset_of_card_le hins_sub hcards
    have hsort_eq : Finset.sort (· ≤ ·)
        (insert (((kb.get c).toFinset \ σ.toFinset).min' (hne c hc)) σ.toFinset)
        = kb.get c := by
      rw [hfeq]
      exact (List.toFinset_sort (· ≤ ·) hxN).mpr hx.1.le_of_lt
    apply Fin.ext
    show @List.indexOf _ instBEqOfDecidableEq
        (Finset.sort (· ≤ ·)
          (insert (((kb.get c).toFinset \ σ.toFinset).min' (hne c hc)) σ.toFinset))
        kb = c.val
    rw [hsort_eq]
    exact List.indexOf_getElem hkbN c.val c.isLt
  · intro u hu
    obtain ⟨huτ, huσ⟩ := Finset.mem_sdiff.mp hu
    have hylt : @List.indexOf _ instBEqOfDecidableEq
        (Finset.sort (· ≤ ·) (insert u σ.toFinset)) kb < kb.length :=
      List.indexOf_lt_length.mpr (hcomplete u hu)
    have hy : kb.get ⟨@List.indexOf _ instBEqOfDecidableEq
        (Finset.sort (· ≤ ·) (insert u σ.toFinset)) kb, hylt⟩
        = Finset.sort (· ≤ ·) (insert u σ.toFinset) :=
      List.getElem_indexOf hylt
    have hdiffeq : (kb.get ⟨@List.indexOf _ instBEqOfDecidableEq
        (Finset.sort (· ≤ ·) (insert u σ.toFinset)) kb, hylt⟩).toFinset
        \ σ.toFinset = {u} := by
      rw [hy, Finset.sort_toFinset, Finset.insert_sdiff_of_not_mem _ huσ,
        Finset.sdiff_self]
      rfl
    exact min_of_singleton _ hdiffeq

/-- Boundary-of-boundary: over three consecutive chain bases both incidence
matrices are defined and their GF(2) product vanishes. -/
theorem bkMatrix_comp_zero (h : List (List ℕ)) (k : ℕ) :
    ∃ B1 B2,
      bkMatrix (kchainbasis h k) (kchainbasis h (k + 1)) = Except.ok B1 ∧
      bkMatrix (kchainbasis h (k + 1)) (kchainbasis h (k + 2)) = Except.ok B2 ∧
      logical_matmul B1 B2 = 0 := by
  obtain ⟨B1, hB1ok, hB1⟩ := bkMatrix_ok_spec (kchainbasis h k) (kchainbasis h (k + 1))
    (kchainbasis_nodup h k) (kchainbasis_nodup h (k + 1))
    (fun cell hc idx hidx => kchainbasis_closed h k cell hc idx hidx)
  obtain ⟨B2, hB2ok, hB2⟩ := bkMatrix_ok_spec (kchainbasis h (k + 1))
    (kchainbasis h (k + 2))
    (kchainbasis_nodup h (k + 1)) (kchainbasis_nodup h (k + 2))
    (fun cell hc idx hidx => kchainbasis_closed h (k + 1) cell hc idx hidx)
  refine ⟨B1, B2, hB1ok, hB2ok, ?_⟩
  rw [logical_matmul_eq_mul]
  ext i j
  rw [Matrix.mul_apply, Matrix.zero_apply]
  obtain ⟨hσs, hσlen⟩ := kchainbasis_sorted_mem h k ((kchainbasis h k).get i)
    (List.get_mem (kchainbasis h k) i.val i.isLt)
  obtain ⟨hτs, hτlen0, e, he, hτe⟩ :=
    (mem_kchainbasis h (k + 2) ((kchainbasis h (k + 2)).get j)).mp
      (List.get_mem (kchainbasis h (k + 2)) j.val j.isLt)
  have hterm : ∀ c, B1 i c * B2 c j =
      if isFace ((kchainbasis h k).get i) ((kchainbasis h (k + 1)).get c) ∧
         isFace ((kchainbasis h (k + 1)).get c) ((kchainbasis h (k + 2)).get j)
      then 1 else 0 := by
    intro c
    by_cases hc : isFace ((kchainbasis h k).get i) ((kchainbasis h (k + 1)).get c) ∧
        isFace ((kchainbasis h (k + 1)).get c) ((kchainbasis h (k + 2)).get j)
    · rw [if_pos hc, (hB1 i c).1.mpr hc.1, (hB2 c j).1.mpr hc.2, one_mul]
    · rw [if_neg hc]
      rcases not_and_or.mp hc with h1 | h2
      · rw [(hB1 i c).2 h1, zero_mul]
      · rw [(hB2 c j).2 h2, mul_zero]
  rw [Finset.sum_congr rfl (fun c _ => hterm c), Finset.sum_boole]
  by_cases hsub : ∀ v ∈ (kchainbasis h k).get i, v ∈ (kchainbasis h (k + 2)).get j
  · have hστF : ((kchainbasis h k).get i).toFinset ⊆
        ((kchainbasis h (k + 2)).get j).toFinset := fun v hv =>
      List.mem_toFinset.mpr (hsub v (List.mem_toFinset.mp hv))
    have hxall : ∀ c : Fin (kchainbasis h (k + 1)).length,
        ((kchainbasis h (k + 1)).get c).Sorted (· < ·) ∧
        ((kchainbasis h (k + 1)).get c).length = ((kchainbasis h k).get i).length + 1 := by
      intro c
      obtain ⟨h1, h2⟩ := kchainbasis_sorted_mem h (k + 1)
        ((kchainbasis h (k + 1)).get c)
        (List.get_mem (kchainbasis h (k + 1)) c.val c.isLt)
      exact ⟨h1, by omega⟩
    have hcomplete : ∀ u ∈ ((kchainbasis h (k + 2)).get j).toFinset \
        ((kchainbasis h k).get i).toFinset,
        Finset.sort (· ≤ ·) (insert u ((kchainbasis h k).get i).toFinset)
          ∈ kchainbasis h (k + 1) := by
      intro u hu
      obtain ⟨huτ, huσ⟩ := Finset.mem_sdiff.mp hu
      refine (mem_kchainbasis h (k + 1) _).mpr ⟨?_, ?_, e, he, ?_⟩
      · exact (Finset.sort_sorted (· ≤ ·) _).lt_of_le (Finset.sort_nodup (· ≤ ·) _)
      · rw [Finset.length_sort, Finset.card_insert_of_not_mem huσ,
          List.toFinset_card_of_nodup hσs.nodup]
        omega
      · intro v hv
        have hv2 := (Finset.mem_sort (· ≤ ·)).mp hv
        rcases Finset.mem_insert.mp hv2 with hvu | hvσ
        · rw [hvu]
          exact hτe u (List.mem_toFinset.mp huτ)
        · exact hτe v (hsub v (List.mem_toFinset.mp hvσ))
    rw [face_pair_count (kchainbasis h (k + 1)) ((kchainbasis h k).get i)
      ((kchainbasis h (k + 2)).get j) (kchainbasis_nodup h (k + 1)) hσs hτs
      (by omega) hxall hcomplete hsub]
    rw [Finset.card_sdiff hστF, List.toFinset_card_of_nodup hτs.nodup,
      List.toFinset_card_of_nodup hσs.nodup, hτlen0, hσlen]
    have h2eq : k + 2 + 1 - (k + 1) = 2 := by omega
    rw [h2eq]
    exact ZMod.natCast_self 2
  · have hempty : (Finset.univ.filter
        (fun c : Fin (kchainbasis h (k + 1)).length =>
          isFace ((kchainbasis h k).get i) ((kchainbasis h (k + 1)).get c) ∧
          isFace ((kchainbasis h (k + 1)).get c) ((kchainbasis h (k + 2)).get j)))
        = ∅ := by
      rw [Finset.eq_empty_iff_forall_not_mem]
      intro c hc
      obtain ⟨-, h1, h2⟩ := Finset.mem_filter.mp hc
      exact hsub (fun v hv => isFace_subset h2 v (isFace_subset h1 v hv))
    rw [hempty, Finset.card_empty]
    exact Nat.cast_zero

/-- **C5**: for every hypergraph and every `k ≥ 1` (written `k = k0 + 1`),
the boundary matrices built from the three consecutive chain bases
`C[k-1], C[k], C[k+1]` are both defined and compose to the all-zero matrix
over GF(2): `logical_matmul (bkMatrix C[k-1] C[k]) (bkMatrix C[k] C[k+1]) = 0`. -/
theorem C5_boundary_composition_zero (h : List (List ℕ)) (k0 : ℕ) :
    ∃ B1 B2,
      bkMatrix (kchainbasis h (k0 + 1 - 1)) (kchainbasis h (k0 + 1)) = Except.ok B1 ∧
      bkMatrix (kchainbasis h (k0 + 1)) (kchainbasis h (k0 + 1 + 1)) = Except.ok B2 ∧
      logical_matmul B1 B2 = 0 :=
  bkMatrix_comp_zero h k0

/-- **C3 counterexample**: for the filled triangle `{(1,2,3)}` the claim is
wrong on two points — the dimension-2 chain basis is *not* empty (the edge
itself is a 2-chain), and `hypergraph_homology_basis` does *not* return the
single generator `(1,2),(1,3),(2,3)`. -/
theorem C3_counterexample :
    kchainbasis [[1, 2, 3]] 2 ≠ [] ∧
    (hypergraph_homology_basis [[1, 2, 3]] 1 false none).1
      ≠ HBasis.chains [[[1, 2], [1, 3], [2, 3]]] := by
  constructor
  · decide
  · decide

/-- **C3** (corrected): for the hypergraph whose only edge is `{1,2,3}` the
dimension-0 basis is `[(1),(2),(3)]`, the dimension-1 basis is
`[(1,2),(1,3),(2,3)]`, and `∂1 = [[1,1,0],[1,0,1],[0,1,1]]` with rank 2 over
GF(2) — but the 2-chain `(1,2,3)` *is* present, `∂2 = [[1],[1],[1]]` has
rank 1, so `β₁ = 3 − 2 − 1 = 0` and `hypergraph_homology_basis(h, 1)`
returns an empty basis. -/
theorem C3_filled_triangle_corrected :
    kchainbasis [[1, 2, 3]] 0 = [[1], [2], [3]] ∧
    kchainbasis [[1, 2, 3]] 1 = [[1, 2], [1, 3], [2, 3]] ∧
    kchainbasis [[1, 2, 3]] 2 = [[1, 2, 3]] ∧
    (∃ B1, bkMatrix (kchainbasis [[1, 2, 3]] 0) (kchainbasis [[1, 2, 3]] 1)
        = Except.ok B1 ∧
      (∀ i j, B1 i j = !![1, 1, 0; 1, 0, 1; 0, 1, 1] i j) ∧
      matSum (smith_normal_form_mod2 B1).2.2.1 = 2 ∧
      B1.rank = 2) ∧
    (∃ B2, bkMatrix (kchainbasis [[1, 2, 3]] 1) (kchainbasis [[1, 2, 3]] 2)
        = Except.ok B2 ∧
      matSum (smith_normal_form_mod2 B2).2.2.1 = 1 ∧
      B2.rank = 1) ∧
    hypergraph_homology_basis [[1, 2, 3]] 1 false none = (HBasis.chains [], []) := by
  refine ⟨by decide, by decide, by decide, ⟨_, rfl, by decide, by decide, ?_⟩,
    ⟨_, rfl, by decide, ?_⟩, ?_⟩
  · rw [← snf_diagOnes_eq_rank]
    decide
  · rw [← snf_diagOnes_eq_rank]
    decide
  · have hb : (hypergraph_homology_basis [[1, 2, 3]] 1 false none).1
        = HBasis.chains [] := by decide
    have he : (hypergraph_homology_basis [[1, 2, 3]] 1 false none).2 = [] := by
      rfl
    rw [Prod.ext_iff]
    exact ⟨hb, he⟩

end HNX
